import Mathlib

/-!
Verification of the propflow prop-lineage engine.

This file gives a shallow embedding of the two core modules of the
repository — the component/prop extractor (`src/astAnalyzer.ts`) and the
lineage graph builder (`src/graphBuilder.ts`) — and proves the frozen
claims about them.

Modelling conventions:

* One parsed source file is a `FileModel`: the declaration forms and the
  JSX elements (in document order) that the analyzer actually inspects
  through ts-morph.  Strings, line numbers and attribute shapes are kept
  exactly as the TypeScript reads them (e.g. the text of a string-literal
  attribute value includes its quotes, as `getText()` returns it).
* The two host collaborators of the graph builder are fields of `Env`:
  `files` stands for the parse cache / `getSourceFile` (total: a missing
  or malformed file is the empty `FileModel`, matching the analyzer's
  "malformed file yields zero components" recovery), and `findUsages`
  stands for `findComponentUsagesInWorkspace`, the raw-text workspace
  search through the vscode API.
* JS `PropNode` objects are heap objects whose `parent` field is a live
  reference mutated by `buildPropChain`; we model the heap as a list
  arena (`store`) and `parent` as an optional index into it, so aliasing
  behaves exactly as in JS.
* The traversal loop `while (depth < maxDepth)` is modelled with `fuel`,
  maintained equal to `maxDepth - depth`; the `depth` counter itself is
  threaded so that the final `isComplete` computation is literal.
-/

namespace PropFlow

/-- Classification of a chain hop (`PropNode.type` in `types.ts`). -/
inductive NodeType where
  | DEFINITION
  | USAGE
  | SOURCE
deriving DecidableEq, Repr, Inhabited

/-- One hop record (`PropNode` in `types.ts`).  `parent` is an optional
index into the node arena, modelling the JS object reference. -/
structure PropNode where
  componentName : String
  filePath : String
  propName : String
  lineCode : Nat
  type : NodeType
  parent : Option Nat
deriving DecidableEq, Repr, Inhabited

/-- `ComponentInfo` of `types.ts`. -/
structure ComponentInfo where
  name : String
  filePath : String
  props : List String
  line : Nat
deriving DecidableEq, Repr, Inhabited

/-- Left brace character (written by code point to keep JSX text literal). -/
def lbrace : Char := Char.ofNat 123

/-- Right brace character. -/
def rbrace : Char := Char.ofNat 125

/-- Double-quote character. -/
def dquoteC : Char := Char.ofNat 34

/-- Single-quote character. -/
def squoteC : Char := Char.ofNat 39

/-- The reserved ambiguity sentinel the analyzer returns for a spread
attribute; the braces are escaped byte-for-byte. -/
def spreadSentinel : String := "\x7b...spread\x7d"

/-! ### AST model of one parsed file -/

/-- A member of a type literal or interface body; the analyzer only looks
at `PropertySignature` members. -/
inductive TypeMember where
  | propSig (name : String)
  | otherMember
deriving Repr

/-- The type-node shapes the analyzer distinguishes.  For a `typeRef`,
`nameText` is `getTypeName().getText()` (no type arguments), `fullText` is
`getText()` (the whole source text, arguments included) and `typeArgs` is
`getTypeArguments()`. -/
inductive TypeNode where
  | typeLiteral (members : List TypeMember)
  | typeRef (nameText : String) (fullText : String) (typeArgs : List TypeNode)
  | intersection (parts : List TypeNode)
  | union (parts : List TypeNode)
  | otherType
deriving Repr

/-- An interface declaration: its own property names and the source texts
of its `extends` clause entries. -/
structure InterfaceDecl where
  name : String
  propNames : List String
  extendsTexts : List String
deriving Repr

/-- The binding-name node of a parameter. -/
inductive BindingName where
  | identB (name : String)
  | objectPattern (elements : List String)
deriving Repr

/-- A parameter: its binding name and optional type annotation. -/
structure Param where
  nameNode : BindingName
  typeNode : Option TypeNode
deriving Repr

/-- A top-level function declaration as the analyzer reads it. -/
structure FnDecl where
  name : Option String
  params : List Param
  startLine : Nat
  fnKeywordLine : Option Nat
deriving Repr

/-- The callee expression of a call initializer. -/
inductive CalleeExpr where
  | identC (text : String)
  | propAccessC (objText : String) (name : String)
  | otherCallee
deriving Repr

/-- An argument of a call initializer, to the extent
`extractComponentFromVariable` inspects it. -/
inductive CallArg where
  | arrowArg (params : List Param)
  | fnExprArg (params : List Param)
  | otherArg
deriving Repr

/-- A variable declaration's initializer, to the extent the analyzer
inspects it. -/
inductive Initializer where
  | arrowFn (params : List Param)
  | fnExpr (params : List Param)
  | callInit (callee : CalleeExpr) (args : List CallArg)
  | otherInit
deriving Repr

/-- A variable declaration as the analyzer reads it. -/
structure VarDecl where
  name : String
  startLine : Nat
  varStatementLine : Option Nat
  typeNode : Option TypeNode
  init : Option Initializer
deriving Repr

/-- Kind of a JSX tag node. -/
inductive ElemKind where
  | opening
  | selfClosing
deriving DecidableEq, Repr

/-- A JSX attribute initializer: absent (bare boolean attribute), a string
literal (text includes the quotes, as `getText()` yields), or a brace
expression (whose inner expression may be absent, yielding a null value). -/
inductive AttrInit where
  | stringLit (text : String)
  | jsxExpr (exprText : Option String)
deriving DecidableEq, Repr

/-- A JSX attribute: an ordinary named attribute with its own start line,
or a spread attribute. -/
inductive JsxAttrLike where
  | attr (name : String) (line : Nat) (init : Option AttrInit)
  | spreadAttr
deriving DecidableEq, Repr

/-- A JSX opening or self-closing element. -/
structure JsxElem where
  kind : ElemKind
  tagName : String
  startLine : Nat
  attrs : List JsxAttrLike
deriving DecidableEq, Repr

/-- One parsed file.  `elements` lists the JSX opening/self-closing
elements in document order.  `reExports` holds the components contributed
by `findReExportedComponents`, supplied by the environment: resolving a
re-export goes through the host filesystem (`resolveModulePath` calls
`fs.existsSync`) and a recursive cross-file analysis, none of which the
claims under verification exercise (all instantiations use `[]`). -/
structure FileModel where
  functions : List FnDecl
  varDecls : List VarDecl
  typeAliases : List (String × TypeNode)
  interfaces : List InterfaceDecl
  elements : List JsxElem
  reExports : List ComponentInfo
deriving Repr

/-- The empty parse result (also stands for a missing/malformed file). -/
def emptyFile : FileModel := ⟨[], [], [], [], [], []⟩

/-- A workspace-search hit: file path and 0-based line, as a vscode
`Location` carries them. -/
structure Loc where
  filePath : String
  line0 : Nat
deriving DecidableEq, Repr

/-- The graph builder's environment: the parse model of every file, and
the raw-text workspace search for `<TagName` (an external collaborator,
`findComponentUsagesInWorkspace`). -/
structure Env where
  files : String → FileModel
  findUsages : String → List Loc

/-! ### Character classes and small string helpers (JS regex semantics) -/

/-- JS `\w`: ASCII letter, digit or underscore. -/
def jsWordChar (c : Char) : Bool :=
  (Char.ofNat 97 ≤ c && c ≤ Char.ofNat 122) ||
  (Char.ofNat 65 ≤ c && c ≤ Char.ofNat 90) ||
  (Char.ofNat 48 ≤ c && c ≤ Char.ofNat 57) ||
  c = Char.ofNat 95

/-- JS `\s` on the whitespace characters attribute texts can contain. -/
def jsSpaceChar (c : Char) : Bool :=
  c = ' ' || c = Char.ofNat 9 || c = Char.ofNat 10 || c = Char.ofNat 13 ||
  c = Char.ofNat 11 || c = Char.ofNat 12

/-- ASCII digit. -/
def asciiDigit (c : Char) : Bool :=
  Char.ofNat 48 ≤ c && c ≤ Char.ofNat 57

/-- `/^[A-Z]/.test(s)`: the first character is an ASCII capital. -/
def startsUpperAZ (s : String) : Bool :=
  match s.data with
  | [] => false
  | c :: _ => Char.ofNat 65 ≤ c && c ≤ Char.ofNat 90

/-- JS `String.prototype.endsWith` (on whole strings). -/
def endsWithB (s suffix : String) : Bool :=
  suffix.data.isSuffixOf s.data

/-- JS `String.prototype.includes`. -/
def containsSub : List Char → List Char → Bool
  | _, [] => true
  | [], _ :: _ => false
  | c :: rest, needle =>
    needle.isPrefixOf (c :: rest) || containsSub rest needle

/-- `value.includes(sub)`. -/
def includesB (s sub : String) : Bool :=
  containsSub s.data sub.data

/-! ### extractPropName / determineNodeType (graphBuilder.ts) -/

/-- The match `/^\x7b?\s*(\w+)\s*\x7d?$/` of `extractPropName`: an
optional opening brace, whitespace, one word, whitespace, an optional
closing brace.  The regex is deterministic on its inputs: the optional
braces are consumed exactly when present. -/
def matchSimpleIdent (v : String) : Option String :=
  let cs := v.data
  let cs := match cs with
    | c :: rest => if c = lbrace then rest else c :: rest
    | [] => []
  let cs := cs.dropWhile jsSpaceChar
  let word := cs.takeWhile jsWordChar
  let rest := (cs.dropWhile jsWordChar).dropWhile jsSpaceChar
  if word ≠ [] && (rest = [] || rest = [rbrace]) then
    some (String.mk word)
  else
    none

/-- The unanchored search `/props\.(\w+)/`: first occurrence of the text
`props.` followed by at least one word character; captures the maximal
word run after it. -/
def findPropsAccess : List Char → Option String
  | [] => none
  | c :: rest =>
    if "props.".data.isPrefixOf (c :: rest) &&
        (((c :: rest).drop 6).headD ' ' |> jsWordChar) then
      some (String.mk (((c :: rest).drop 6).takeWhile jsWordChar))
    else
      findPropsAccess rest

/-- `GraphBuilder.extractPropName`: turns the resolved attribute value
into the prop name recorded on the hop. -/
def extractPropName (value : Option String) : String :=
  match value with
  | none => "unknown"
  | some v =>
    if v = spreadSentinel then spreadSentinel
    else
      match matchSimpleIdent v with
      | some w => w
      | none =>
        match findPropsAccess v.data with
        | some w => w
        | none => v

/-- `GraphBuilder.determineNodeType`: literal values are sources; a
`props.` passthrough and a bare identifier both classify as usage. -/
def determineNodeType (value : Option String) : NodeType :=
  match value with
  | none => .SOURCE
  | some v =>
    if v.data.headD ' ' = dquoteC || v.data.headD ' ' = squoteC ||
        v = "true" || v = "false" ||
        (decide (v.data ≠ []) && v.data.all asciiDigit) then
      .SOURCE
    else if includesB v "props." then
      .USAGE
    else
      .USAGE

/-! ### Attribute scanning (astAnalyzer.ts) -/

/-- Whether an attribute node is a `JsxSpreadAttribute`. -/
def isSpreadAttr : JsxAttrLike → Bool
  | .spreadAttr => true
  | .attr _ _ _ => false

/-- The shared attribute scan of `findPropUsage` and
`findPropUsageAtLocation`: the first `JsxAttribute` named `propName`
yields `"true"` when bare, its text when a string literal, and the inner
expression text (possibly null) when a brace expression. -/
def findAttrValue (attrs : List JsxAttrLike) (propName : String) :
    Option (Nat × Option String) :=
  match attrs with
  | [] => none
  | .spreadAttr :: rest => findAttrValue rest propName
  | .attr name line init :: rest =>
    if name = propName then
      match init with
      | none => some (line, some "true")
      | some (.stringLit t) => some (line, some t)
      | some (.jsxExpr e) => some (line, e)
    else
      findAttrValue rest propName

/-- The opening elements of a file, in document order
(`getDescendantsOfKind(JsxOpeningElement)`). -/
def openingElems (file : FileModel) : List JsxElem :=
  file.elements.filter (fun e => e.kind = .opening)

/-- The self-closing elements of a file, in document order. -/
def selfClosingElems (file : FileModel) : List JsxElem :=
  file.elements.filter (fun e => e.kind = .selfClosing)

/-- Nearest-line selection of `findPropUsageAtLocation`: start from the
first match and replace it whenever a strictly smaller distance is seen. -/
def closestElem (nearLine : Nat) (first : JsxElem) (rest : List JsxElem) :
    JsxElem :=
  (first :: rest).foldl
    (fun best e =>
      if max e.startLine nearLine - min e.startLine nearLine <
          max best.startLine nearLine - min best.startLine nearLine then
        e
      else best)
    first

/-- `ASTAnalyzer.findPropUsageAtLocation`: gathers opening then
self-closing elements, keeps those whose tag is `componentName`, picks the
one nearest to `nearLine`, and scans its attributes; a spread attribute
supplies the sentinel when no explicit attribute matches. -/
def findPropUsageAtLocation (file : FileModel)
    (componentName propName : String) (nearLine : Nat) :
    Option (Nat × Option String) :=
  let allElements := openingElems file ++ selfClosingElems file
  let matching := allElements.filter (fun e => e.tagName = componentName)
  match matching with
  | [] => none
  | m0 :: ms =>
    let closest := closestElem nearLine m0 ms
    let hasSpread := closest.attrs.any isSpreadAttr
    match findAttrValue closest.attrs propName with
    | some r => some r
    | none =>
      if hasSpread then some (closest.startLine, some spreadSentinel)
      else none

/-- Element loop of `findPropUsage` over the gathered elements. -/
def findPropUsageGo (componentName propName : String) :
    List JsxElem → Option (Nat × Option String)
  | [] => none
  | e :: rest =>
    if e.tagName = componentName then
      let hasSpread := e.attrs.any isSpreadAttr
      match findAttrValue e.attrs propName with
      | some r => some r
      | none =>
        if hasSpread then some (e.startLine, some spreadSentinel)
        else findPropUsageGo componentName propName rest
    else findPropUsageGo componentName propName rest

/-- `ASTAnalyzer.findPropUsage` (whole-file scan): iterates the
`JsxOpeningElement` descendants only — self-closing elements are not
gathered — and for each matching tag returns the first matching
attribute's value, else the sentinel when the tag has a spread attribute,
else moves on to the next matching tag. -/
def findPropUsage (file : FileModel) (componentName propName : String) :
    Option (Nat × Option String) :=
  findPropUsageGo componentName propName (openingElems file)

/-! ### Type resolution and component extraction (astAnalyzer.ts) -/

/-- Name of a `PropertySignature` member, none for other member kinds. -/
def memberName : TypeMember → Option String
  | .propSig n => some n
  | .otherMember => none

/-- The regex `/^(?:React\.)?Wrapper<(.+)>$/` used for the
`PropsWithChildren` and `PropsWithRef` special cases: an optional `React.`
qualifier, the wrapper name, and the greedy inner text between the first
`<` and the final `>`. -/
def matchGenericWrapper (s wrapper : String) : Option String :=
  let core := if s.startsWith "React." then s.drop 6 else s
  if core.startsWith (wrapper ++ "<") && core.endsWith ">" &&
      decide (wrapper.length + 2 < core.length) then
    some ((core.drop (wrapper.length + 1)).dropRight 1)
  else
    none

/-- `ASTAnalyzer.resolveTypeToProps`, resolving a type NAME against the
declarations of one file.  The source recurses unboundedly (it would not
terminate on a cyclic alias chain); the model bounds the recursion with
`fuel`, and every use in this development stays far below the bound. -/
def resolveTypeToProps (file : FileModel) : Nat → String → List String
  | 0, _ => []
  | fuel + 1, typeName =>
    match matchGenericWrapper typeName "PropsWithChildren" with
    | some inner =>
      ("children" :: resolveTypeToProps file fuel inner.trim).eraseDups
    | none =>
    match matchGenericWrapper typeName "PropsWithRef" with
    | some inner =>
      ("ref" :: resolveTypeToProps file fuel inner.trim).eraseDups
    | none =>
    match file.typeAliases.find? (fun p => p.1 = typeName) with
    | some (_, .typeLiteral members) => members.filterMap memberName
    | some (_, .intersection parts) =>
      (parts.foldl (fun acc part =>
        match part with
        | .typeLiteral members => acc ++ members.filterMap memberName
        | .typeRef _ fullText _ => acc ++ resolveTypeToProps file fuel fullText
        | _ => acc) []).eraseDups
    | some (_, .union parts) =>
      (parts.foldl (fun acc part =>
        match part with
        | .typeLiteral members => acc ++ members.filterMap memberName
        | .typeRef _ fullText _ => acc ++ resolveTypeToProps file fuel fullText
        | _ => acc) []).eraseDups
    | some (_, .typeRef _ fullText _) => resolveTypeToProps file fuel fullText
    | _ =>
      match file.interfaces.find? (fun i => i.name = typeName) with
      | some i =>
        (i.propNames ++ i.extendsTexts.foldl
          (fun acc t => acc ++ resolveTypeToProps file fuel t) []).eraseDups
      | none => []

/-- Fuel used at the analyzer's (unbounded in the source) recursion entry
points; no input in this development needs more than a handful of steps. -/
def typeResolveFuel : Nat := 100

/-- `ASTAnalyzer.extractPropsFromTypeDefinition`: the
`<ComponentName>Props` convention — members of a same-named type-literal
alias, then properties of a same-named interface (extends not followed
here), pushed into one list. -/
def extractPropsFromTypeDefinition (file : FileModel)
    (componentName : String) : List String :=
  let typeName := componentName ++ "Props"
  let fromAlias :=
    match file.typeAliases.find? (fun p => p.1 = typeName) with
    | some (_, .typeLiteral members) => members.filterMap memberName
    | _ => []
  let fromInterface :=
    match file.interfaces.find? (fun i => i.name = typeName) with
    | some i => i.propNames
    | none => []
  fromAlias ++ fromInterface

/-- `ASTAnalyzer.extractPropsFromParameter`: destructuring elements first;
otherwise an inline type-literal annotation; otherwise a type reference
resolved by name; otherwise nothing. -/
def extractPropsFromParameter (file : FileModel) (param : Param) :
    List String :=
  match param.nameNode with
  | .objectPattern (e :: es) => e :: es
  | _ =>
    match param.typeNode with
    | some (.typeLiteral members) => members.filterMap memberName
    | some (.typeRef nameText _ _) =>
      resolveTypeToProps file typeResolveFuel nameText
    | _ => []

/-- Props of the first parameter of a parameter list, empty when none. -/
def propsOfFirstParam (file : FileModel) (params : List Param) :
    List String :=
  match params with
  | [] => []
  | p :: _ => extractPropsFromParameter file p

/-- `ASTAnalyzer.extractComponentFromFunction`: a named, uppercase
function declaration; props from the first parameter, with the
`<Name>Props` fallback; line taken at the `function` keyword when
present. -/
def extractComponentFromFunction (file : FileModel) (filePath : String)
    (fn : FnDecl) : Option ComponentInfo :=
  match fn.name with
  | none => none
  | some name =>
    if startsUpperAZ name then
      let props := propsOfFirstParam file fn.params
      let props :=
        if props = [] then extractPropsFromTypeDefinition file name
        else props
      some ⟨name, filePath, props, fn.fnKeywordLine.getD fn.startLine⟩
    else
      none

/-- The recognized higher-order wrapper names of
`extractComponentFromVariable`, in source order. -/
def wrapperFunctions : List String :=
  ["memo", "forwardRef", "React.memo", "React.forwardRef", "observer",
   "connect"]

/-- The source's wrapper test: `funcName.endsWith(wrapper)` against any
entry of `wrapperFunctions`. -/
def wrapperNameHit (funcName : String) : Bool :=
  wrapperFunctions.any (fun w => endsWithB funcName w)

/-- The callee's printed name: an identifier's text, `obj.name` for a
property access, and the empty string otherwise. -/
def calleeName : CalleeExpr → String
  | .identC t => t
  | .propAccessC objText name => objText ++ "." ++ name
  | .otherCallee => ""

/-- Line recorded for a variable-bound component: the enclosing variable
statement's line when available, else the declaration's. -/
def varDeclLine (v : VarDecl) : Nat :=
  v.varStatementLine.getD v.startLine

/-- Props for the direct arrow/function-expression initializer branch:
parameter extraction, then the `React.FC<Props>`-style type-argument
fallback on the variable's annotation, then the `<Name>Props`
convention. -/
def varFnProps (file : FileModel) (v : VarDecl) (params : List Param) :
    List String :=
  let props := propsOfFirstParam file params
  let props :=
    if props = [] then
      match v.typeNode with
      | some (.typeRef _ _ (arg0 :: _)) =>
        match arg0 with
        | .typeLiteral members => members.filterMap memberName
        | .typeRef _ fullText _ =>
          resolveTypeToProps file typeResolveFuel fullText
        | _ => []
      | _ => []
    else props
  if props = [] then extractPropsFromTypeDefinition file v.name else props

/-- Props for a function wrapped in a recognized higher-order call:
parameter extraction then the `<Name>Props` convention (the variable's
type annotation is not consulted in this branch, as in the source). -/
def wrappedFnProps (file : FileModel) (v : VarDecl) (params : List Param) :
    List String :=
  let props := propsOfFirstParam file params
  if props = [] then extractPropsFromTypeDefinition file v.name else props

/-- `ASTAnalyzer.extractComponentFromVariable`: an uppercase-named
variable bound to an arrow function or function expression, or to a call
whose callee's name ends with a recognized wrapper and whose first
argument is an arrow function or function expression. -/
def extractComponentFromVariable (file : FileModel) (filePath : String)
    (v : VarDecl) : Option ComponentInfo :=
  if startsUpperAZ v.name then
    match v.init with
    | none => none
    | some (.arrowFn params) =>
      some ⟨v.name, filePath, varFnProps file v params, varDeclLine v⟩
    | some (.fnExpr params) =>
      some ⟨v.name, filePath, varFnProps file v params, varDeclLine v⟩
    | some (.callInit callee args) =>
      if wrapperNameHit (calleeName callee) then
        match args with
        | .arrowArg params :: _ =>
          some ⟨v.name, filePath, wrappedFnProps file v params,
            varDeclLine v⟩
        | .fnExprArg params :: _ =>
          some ⟨v.name, filePath, wrappedFnProps file v params,
            varDeclLine v⟩
        | _ => none
      else none
    | some .otherInit => none
  else
    none

/-- `ASTAnalyzer.analyzeFile` on one parse model: function components,
then variable components, then re-exported components. -/
def analyzeFileModel (file : FileModel) (filePath : String) :
    List ComponentInfo :=
  file.functions.filterMap (extractComponentFromFunction file filePath) ++
  file.varDecls.filterMap (extractComponentFromVariable file filePath) ++
  file.reExports

/-- `analyzeFile` through the environment's parse cache. -/
def analyzeFile (env : Env) (filePath : String) : List ComponentInfo :=
  analyzeFileModel (env.files filePath) filePath

/-! ### The graph builder (graphBuilder.ts) -/

/-- `GraphBuilder.maxDepth`, the hardcoded depth bound. -/
def GraphBuilder.maxDepth : Nat := 20

/-- Dereference one arena slot. -/
def storeGet (store : List PropNode) (i : Nat) : PropNode :=
  store.getD i default

/-- Mutate the `type` field of the node object at slot `i` (a no-op out of
bounds, which never occurs in a run). -/
def setType (store : List PropNode) (i : Nat) (ty : NodeType) :
    List PropNode :=
  store.set i
    ⟨(storeGet store i).componentName, (storeGet store i).filePath,
     (storeGet store i).propName, (storeGet store i).lineCode, ty,
     (storeGet store i).parent⟩

/-- Mutate the `parent` field of the node object at slot `i`. -/
def setParent (store : List PropNode) (i : Nat) (p : Option Nat) :
    List PropNode :=
  store.set i
    ⟨(storeGet store i).componentName, (storeGet store i).filePath,
     (storeGet store i).propName, (storeGet store i).lineCode,
     (storeGet store i).type, p⟩

/-- `GraphBuilder.findComponentAtLine`: among the file's components, the
one declared on the greatest line not exceeding `line` (first wins on
ties, by the strict comparison in the source). -/
def findComponentAtLine (env : Env) (filePath : String) (line : Nat) :
    Option (String × Nat) :=
  (analyzeFile env filePath).foldl
    (fun closest comp =>
      if comp.line ≤ line then
        match closest with
        | none => some (comp.name, comp.line)
        | some (_, cl) =>
          if cl < comp.line then some (comp.name, comp.line) else closest
      else closest)
    none

/-- `GraphBuilder.analyzeLocationForPropUsage`: resolve the prop at the
search hit, attribute it to the nearest preceding component declaration,
and build the fresh parent node (its `parent` reference is null). -/
def analyzeLocationForPropUsage (env : Env) (loc : Loc) (node : PropNode) :
    Option PropNode :=
  match findPropUsageAtLocation (env.files loc.filePath) node.componentName
      node.propName (loc.line0 + 1) with
  | none => none
  | some (line, value) =>
    match findComponentAtLine env loc.filePath line with
    | none => none
    | some (parentName, _) =>
      some ⟨parentName, loc.filePath, extractPropName value, line,
        determineNodeType value, none⟩

/-- Candidate loop of `findParentNode`: skip hits in the node's own file,
take the first hit that resolves. -/
def findParentGo (env : Env) (node : PropNode) :
    List Loc → Option PropNode
  | [] => none
  | loc :: rest =>
    if loc.filePath = node.filePath then findParentGo env node rest
    else
      match analyzeLocationForPropUsage env loc node with
      | some p => some p
      | none => findParentGo env node rest

/-- `GraphBuilder.findParentNode`: workspace search for the component's
tag, then the candidate loop. -/
def findParentNode (env : Env) (node : PropNode) : Option PropNode :=
  findParentGo env node (env.findUsages node.componentName)

/-- Result of the traversal loop: final arena, chain of slot indices in
discovery (current-to-source) order, ambiguity flag, final value of the
`depth` counter, and whether the loop exited through the no-parent
`break` (the spec's EXHAUSTED termination) rather than by exhausting the
`depth < maxDepth` condition. -/
structure LoopResult where
  store : List PropNode
  chain : List Nat
  ambiguous : Bool
  depth : Nat
  broke : Bool
deriving DecidableEq, Repr

/-- The `while (depth < maxDepth)` loop of `buildPropChain`.  `fuel` is
maintained equal to `maxDepth - depth`.  Each iteration increments
`depth`, asks for a parent of the current node, and either marks the last
chain node as SOURCE and breaks, or pushes the parent into the arena and
chain, links the current node's `parent` reference to it, and
continues. -/
def chainLoop (env : Env) : Nat → Nat → List PropNode → List Nat → Nat →
    Bool → LoopResult
  | 0, depth, store, chain, _, ambiguous =>
    ⟨store, chain, ambiguous, depth, false⟩
  | fuel + 1, depth, store, chain, cur, ambiguous =>
    match findParentNode env (storeGet store cur) with
    | none =>
      let store' :=
        match chain.getLast? with
        | some last => setType store last .SOURCE
        | none => store
      ⟨store', chain, ambiguous, depth + 1, true⟩
    | some p =>
      let ambiguous := ambiguous || p.propName = spreadSentinel
      let j := store.length
      let store' := setParent (store ++ [p]) cur (some j)
      chainLoop env fuel (depth + 1) store' (chain ++ [j]) j ambiguous

/-- The final classification pass of `buildPropChain` over the reversed
chain: index 0 forced to SOURCE; when longer than one, the last index
forced to DEFINITION and every interior index to USAGE. -/
def overwriteTypes (store : List PropNode) (rev : List Nat) :
    List PropNode :=
  match rev with
  | [] => store
  | first :: rest =>
    let s1 := setType store first .SOURCE
    match rest.getLast? with
    | none => s1
    | some lastIdx =>
      let s2 := setType s1 lastIdx .DEFINITION
      rest.dropLast.foldl (fun s i => setType s i .USAGE) s2

/-- `PropTrace` of `types.ts`; the chain is carried as arena slots plus
the arena, so that the nodes' `parent` references stay meaningful. -/
structure PropTrace where
  propName : String
  chainIdx : List Nat
  store : List PropNode
  isComplete : Bool
  ambiguous : Bool
deriving DecidableEq, Repr

/-- The chain as the list of node records, source to current. -/
def PropTrace.chain (t : PropTrace) : List PropNode :=
  t.chainIdx.map (storeGet t.store)

/-- The initial DEFINITION node of a trace: the requested component and
prop, with the component's declaration line (0 when the component is not
found in the file). -/
def initialNode (env : Env) (filePath componentName propName : String) :
    PropNode :=
  let components := analyzeFile env filePath
  let lineCode :=
    match components.find? (fun c => c.name = componentName) with
    | some c => c.line
    | none => 0
  ⟨componentName, filePath, propName, lineCode, .DEFINITION, none⟩

/-- The loop run of `buildPropChain`: arena seeded with the initial node
at slot 0, chain `[0]`, depth 0, ambiguity false. -/
def buildRun (env : Env) (maxDepth : Nat)
    (filePath componentName propName : String) : LoopResult :=
  chainLoop env maxDepth 0 [initialNode env filePath componentName propName]
    [0] 0 false

/-- Whether the traversal ended at the EXHAUSTED case (the no-parent
`break`), as opposed to running out of the depth bound. -/
def exhaustedBreak (env : Env) (maxDepth : Nat)
    (filePath componentName propName : String) : Bool :=
  (buildRun env maxDepth filePath componentName propName).broke

/-- `GraphBuilder.buildPropChain`.  `maxDepth` is the builder's depth
bound (`GraphBuilder.maxDepth = 20` in the source; the spec exposes it as
the `maxTraceDepth` setting, default 20). -/
def buildPropChain (env : Env) (maxDepth : Nat)
    (filePath componentName propName : String) : PropTrace :=
  let r := buildRun env maxDepth filePath componentName propName
  let isComplete := decide (r.depth < maxDepth)
  let rev := r.chain.reverse
  ⟨propName, rev, overwriteTypes r.store rev, isComplete, r.ambiguous⟩

/-! ### Well-formedness of JSX attribute names

No JSX attribute can be named `{...spread}` (the JSX grammar only allows
identifier-like attribute names, which cannot contain braces); the
sentinel therefore never collides with a real attribute.  The predicate
captures this of a model environment. -/

/-- An attribute is not named like the sentinel (spread attributes carry
no name). -/
def wfAttrB : JsxAttrLike → Bool
  | .attr nm _ _ => decide (nm ≠ spreadSentinel)
  | .spreadAttr => true

/-- No ordinary attribute of the file is named like the sentinel. -/
def wfFileB (f : FileModel) : Bool :=
  f.elements.all (fun e => e.attrs.all wfAttrB)

/-- Every file of the environment is attribute-name well-formed. -/
def WfEnv (env : Env) : Prop :=
  ∀ fp, wfFileB (env.files fp) = true

/-! ### Predicates spelled from the claims (for refutation statements) -/

/-- The wrapper-name test as claim C7 states it: the callee is exactly one
of `memo`, `forwardRef`, `observer`, `connect`, optionally
namespace-qualified (a dotted suffix such as `React.memo`). -/
def claimWrapperName (s : String) : Bool :=
  ["memo", "forwardRef", "observer", "connect"].any
    (fun w => s = w || endsWithB s ("." ++ w))

/-- The characterization the code actually implements: the callee's
printed name merely ends with one of the four wrapper names. -/
def wrapperSuffixHit (s : String) : Bool :=
  ["memo", "forwardRef", "observer", "connect"].any
    (fun w => endsWithB s w)

/-- Whether the first call argument is an arrow function or function
expression. -/
def firstArgIsFunction (args : List CallArg) : Bool :=
  match args with
  | .arrowArg _ :: _ => true
  | .fnExprArg _ :: _ => true
  | _ => false

/-! ### Concrete environments used by counterexamples and witnesses -/

/-- A function declaration with destructured props, at line 1. -/
def fnDeclAt (name : String) (props : List String) : FnDecl :=
  ⟨some name, [⟨.objectPattern props, none⟩], 1, some 1⟩

/-- Scenario A, file `Parent.tsx`:
`function Parent(){ return <Child label="hi"/> }`. -/
def scenAParentFile : FileModel :=
  ⟨[⟨some "Parent", [], 1, some 1⟩], [], [], [],
   [⟨.selfClosing, "Child", 1, [.attr "label" 1 (some (.stringLit "\"hi\""))]⟩],
   []⟩

/-- Scenario A, file `Child.tsx`: `function Child({label}){...}`. -/
def scenAChildFile : FileModel :=
  ⟨[fnDeclAt "Child" ["label"]], [], [], [], [], []⟩

/-- Scenario A environment; the search results are exactly what the raw
`<Child[\s/>]` text search finds in the two files (one hit, in
`Parent.tsx` at 0-based line 0). -/
def envA : Env :=
  ⟨fun fp =>
    if fp = "Parent.tsx" then scenAParentFile
    else if fp = "Child.tsx" then scenAChildFile
    else emptyFile,
   fun name => if name = "Child" then [⟨"Parent.tsx", 0⟩] else []⟩

/-- File `F(k)` of the 19-hop linear workspace: declares component `C(k)`
at line 1 and, for positive `k`, uses `<C(k-1) {...rest}/>` at line 2. -/
def linFile (k : Nat) : FileModel :=
  ⟨[⟨some ("C" ++ toString k), [], 1, some 1⟩], [], [], [],
   if k = 0 then []
   else [⟨.selfClosing, "C" ++ toString (k - 1), 2, [.spreadAttr]⟩],
   []⟩

/-- A workspace with a linear usage chain of exactly 19 resolvable hops:
`C0` is used (through a spread) in `F1`, ... `C18` in `F19`, and `C19` is
used nowhere, so the twentieth loop iteration terminates at the
EXHAUSTED case.  The file and search tables are association lists so that
every lookup evaluates by plain list recursion. -/
def envLin : Env :=
  ⟨fun fp =>
    (((List.range 20).map
      (fun k => ("F" ++ Nat.repr k, linFile k))).lookup fp).getD emptyFile,
   fun name =>
    ((((List.range 19).map
      (fun k => ("C" ++ Nat.repr k,
        [Loc.mk ("F" ++ Nat.repr (k + 1)) 1]))).lookup name).getD [])⟩

/-- File `A` of the two-file cycle: component `CompA` at line 1, usage
`<CompB {...rest}/>` at line 2. -/
def cycFileA : FileModel :=
  ⟨[⟨some "CompA", [], 1, some 1⟩], [], [], [],
   [⟨.selfClosing, "CompB", 2, [.spreadAttr]⟩], []⟩

/-- File `B` of the two-file cycle: component `CompB` at line 1, usage
`<CompA {...rest}/>` at line 2. -/
def cycFileB : FileModel :=
  ⟨[⟨some "CompB", [], 1, some 1⟩], [], [], [],
   [⟨.selfClosing, "CompA", 2, [.spreadAttr]⟩], []⟩

/-- A workspace whose usage graph is a two-component cycle, so every
parent search resolves and only the depth bound stops the traversal. -/
def envCyc : Env :=
  ⟨fun fp => if fp = "A" then cycFileA else if fp = "B" then cycFileB
    else emptyFile,
   fun name =>
    if name = "CompA" then [⟨"B", 1⟩]
    else if name = "CompB" then [⟨"A", 1⟩]
    else []⟩

/-- Three-file spread chain: `Child` (traced) is used with a spread by
`Parent`, which is used with a spread by `Grand`, which is used
nowhere. -/
def envSp : Env :=
  ⟨fun fp =>
    if fp = "C.tsx" then ⟨[fnDeclAt "Child" ["label"]], [], [], [], [], []⟩
    else if fp = "P.tsx" then
      ⟨[⟨some "Parent", [], 1, some 1⟩], [], [], [],
       [⟨.selfClosing, "Child", 2, [.spreadAttr]⟩], []⟩
    else if fp = "G.tsx" then
      ⟨[⟨some "Grand", [], 1, some 1⟩], [], [], [],
       [⟨.selfClosing, "Parent", 2, [.spreadAttr]⟩], []⟩
    else emptyFile,
   fun name =>
    if name = "Child" then [⟨"P.tsx", 1⟩]
    else if name = "Parent" then [⟨"G.tsx", 1⟩]
    else []⟩

/-- The empty workspace: every file parses to nothing and no tag is used
anywhere. -/
def envEmpty : Env := ⟨fun _ => emptyFile, fun _ => []⟩

/-- A file whose only JSX is the self-closing
`<Input placeholder="Enter text" />` (at line 1), as in the repository's
standalone analyzer test "Find prop in self-closing element". -/
def selfClosingFile : FileModel :=
  ⟨[⟨some "App", [], 1, some 1⟩], [], [], [],
   [⟨.selfClosing, "Input", 1,
     [.attr "placeholder" 1 (some (.stringLit "\"Enter text\""))]⟩],
   []⟩

/-- `const Foo = disconnect(() => ...)`: an uppercase variable initialized
by a call to a function that is not a recognized wrapper but whose name
ends in `connect`. -/
def fooDisconnectDecl : VarDecl :=
  ⟨"Foo", 1, some 1, none, some (.callInit (.identC "disconnect") [.arrowArg []])⟩

/-- The fields of a node that no arena mutation ever touches (only
`type` and `parent` are written after construction). -/
def nodeCore (n : PropNode) : String × String × String × Nat :=
  (n.componentName, n.filePath, n.propName, n.lineCode)

/-- The prop names recorded along a chain of arena slots. -/
def propsOf (store : List PropNode) (chain : List Nat) : List String :=
  chain.map (fun i => (storeGet store i).propName)

/-- Invariant of the traversal loop state: the chain is a non-empty,
strictly increasing list of in-bounds slots ending at the current slot;
consecutive chain slots are linked by `parent` references; and the
current (= last) node's `parent` is still null. -/
structure LoopInv (store : List PropNode) (chain : List Nat) (cur : Nat) :
    Prop where
  ne : chain ≠ []
  lastEq : chain.getLast? = some cur
  sorted : List.Chain' (· < ·) chain
  bounded : ∀ i ∈ chain, i < store.length
  parentChain :
    List.Chain' (fun a b => (storeGet store a).parent = some b) chain
  parentLast : (storeGet store cur).parent = none

/-! ## Lemmas about the arena operations -/

theorem storeGet_set_self (s : List PropNode) (i : Nat) (n : PropNode)
    (h : i < s.length) : storeGet (s.set i n) i = n := by
  rw [storeGet, List.getD_eq_getElem _ _ (by simpa using h),
    List.getElem_set]
  simp

theorem storeGet_set_ne (s : List PropNode) (i k : Nat) (n : PropNode)
    (h : k ≠ i) : storeGet (s.set i n) k = storeGet s k := by
  rcases Nat.lt_or_ge k s.length with hk | hk
  · rw [storeGet, storeGet, List.getD_eq_getElem _ _ (by simpa using hk),
      List.getD_eq_getElem _ _ hk, List.getElem_set,
      if_neg (fun hik => h (Eq.symm hik))]
  · rw [storeGet, storeGet, List.getD_eq_default _ _ (by simpa using hk),
      List.getD_eq_default _ _ hk]

theorem storeGet_append_lt (s t : List PropNode) (i : Nat)
    (h : i < s.length) : storeGet (s ++ t) i = storeGet s i := by
  rw [storeGet, storeGet, List.getD_eq_getElem _ _ h,
    List.getD_eq_getElem _ _ (by simp; omega), List.getElem_append_left h]

theorem storeGet_append_len (s : List PropNode) (p : PropNode) :
    storeGet (s ++ [p]) s.length = p := by
  rw [storeGet, List.getD_eq_getElem _ _ (by simp),
    List.getElem_concat_length _ _ _ rfl]

theorem length_setType (s : List PropNode) (i : Nat) (ty : NodeType) :
    (setType s i ty).length = s.length := by
  rw [setType, List.length_set]

theorem length_setParent (s : List PropNode) (i : Nat) (p : Option Nat) :
    (setParent s i p).length = s.length := by
  rw [setParent, List.length_set]

theorem nodeCore_setType (s : List PropNode) (i : Nat) (ty : NodeType)
    (k : Nat) : nodeCore (storeGet (setType s i ty) k) =
      nodeCore (storeGet s k) := by
  by_cases hk : k = i
  · subst hk
    by_cases hi : k < s.length
    · rw [setType, storeGet_set_self _ _ _ hi]; rfl
    · rw [setType, List.set_eq_of_length_le (by omega)]
  · rw [setType, storeGet_set_ne _ _ _ _ hk]

theorem parent_setType (s : List PropNode) (i : Nat) (ty : NodeType)
    (k : Nat) : (storeGet (setType s i ty) k).parent =
      (storeGet s k).parent := by
  by_cases hk : k = i
  · subst hk
    by_cases hi : k < s.length
    · rw [setType, storeGet_set_self _ _ _ hi]
    · rw [setType, List.set_eq_of_length_le (by omega)]
  · rw [setType, storeGet_set_ne _ _ _ _ hk]

theorem type_setType_self (s : List PropNode) (i : Nat) (ty : NodeType)
    (h : i < s.length) : (storeGet (setType s i ty) i).type = ty := by
  rw [setType, storeGet_set_self _ _ _ h]

theorem type_setType_ne (s : List PropNode) (i : Nat) (ty : NodeType)
    (k : Nat) (h : k ≠ i) : (storeGet (setType s i ty) k).type =
      (storeGet s k).type := by
  rw [setType, storeGet_set_ne _ _ _ _ h]

theorem nodeCore_setParent (s : List PropNode) (i : Nat) (p : Option Nat)
    (k : Nat) : nodeCore (storeGet (setParent s i p) k) =
      nodeCore (storeGet s k) := by
  by_cases hk : k = i
  · subst hk
    by_cases hi : k < s.length
    · rw [setParent, storeGet_set_self _ _ _ hi]; rfl
    · rw [setParent, List.set_eq_of_length_le (by omega)]
  · rw [setParent, storeGet_set_ne _ _ _ _ hk]

theorem parent_setParent_self (s : List PropNode) (i : Nat)
    (p : Option Nat) (h : i < s.length) :
    (storeGet (setParent s i p) i).parent = p := by
  rw [setParent, storeGet_set_self _ _ _ h]

theorem parent_setParent_ne (s : List PropNode) (i : Nat) (p : Option Nat)
    (k : Nat) (h : k ≠ i) : (storeGet (setParent s i p) k).parent =
      (storeGet s k).parent := by
  rw [setParent, storeGet_set_ne _ _ _ _ h]

theorem propName_nodeCore {a b : PropNode} (h : nodeCore a = nodeCore b) :
    a.propName = b.propName := by
  simpa [nodeCore] using congrArg (fun x => x.2.2.1) h

theorem componentName_nodeCore {a b : PropNode}
    (h : nodeCore a = nodeCore b) : a.componentName = b.componentName := by
  simpa [nodeCore] using congrArg (fun x => x.1) h

theorem lineCode_nodeCore {a b : PropNode} (h : nodeCore a = nodeCore b) :
    a.lineCode = b.lineCode := by
  simpa [nodeCore] using congrArg (fun x => x.2.2.2) h

/-! ## Lemmas about parent resolution -/

theorem analyzeLocation_parent_none (env : Env) (loc : Loc)
    (node q : PropNode)
    (h : analyzeLocationForPropUsage env loc node = some q) :
    q.parent = none := by
  unfold analyzeLocationForPropUsage at h
  split at h
  · simp at h
  · split at h
    · simp at h
    · obtain rfl := Option.some.inj h
      rfl

theorem analyzeLocation_propName (env : Env) (loc : Loc)
    (node q : PropNode)
    (h : analyzeLocationForPropUsage env loc node = some q) :
    ∃ line value,
      findPropUsageAtLocation (env.files loc.filePath) node.componentName
        node.propName (loc.line0 + 1) = some (line, value) ∧
      q.propName = extractPropName value := by
  unfold analyzeLocationForPropUsage at h
  split at h
  · simp at h
  · split at h
    · simp at h
    · rename_i x line value hfind closest pn cl hcomp
      obtain rfl := Option.some.inj h
      exact ⟨line, value, hfind, rfl⟩

theorem findParentGo_parent_none (env : Env) (node : PropNode) :
    ∀ (locs : List Loc) (q : PropNode),
      findParentGo env node locs = some q → q.parent = none := by
  intro locs
  induction locs with
  | nil => intro q h; simp [findParentGo] at h
  | cons loc rest ih =>
    intro q h
    rw [findParentGo] at h
    split at h
    · exact ih q h
    · split at h
      · rename_i p heq
        obtain rfl := Option.some.inj h
        exact analyzeLocation_parent_none env loc node p heq
      · exact ih q h

theorem findParentNode_parent_none (env : Env) (node q : PropNode)
    (h : findParentNode env node = some q) : q.parent = none := by
  rw [findParentNode] at h
  exact findParentGo_parent_none env node _ q h

/-! ## The sentinel is never produced by identifier extraction -/

theorem mk_takeWhile_ne_sentinel (cs : List Char) :
    String.mk (cs.takeWhile jsWordChar) ≠ spreadSentinel := by
  intro h
  have hdata : cs.takeWhile jsWordChar = spreadSentinel.data :=
    congrArg String.data h
  have hmem : lbrace ∈ cs.takeWhile jsWordChar := by
    rw [hdata]; decide
  have hword := List.mem_takeWhile_imp hmem
  exact absurd hword (by decide)

theorem matchSimpleIdent_shape (v w : String)
    (h : matchSimpleIdent v = some w) :
    ∃ cs : List Char, w = String.mk (cs.takeWhile jsWordChar) := by
  simp only [matchSimpleIdent] at h
  split at h
  · exact ⟨_, (Option.some.inj h).symm⟩
  · simp at h

theorem findPropsAccess_shape :
    ∀ (cs : List Char) (w : String), findPropsAccess cs = some w →
      ∃ ds : List Char, w = String.mk (ds.takeWhile jsWordChar) := by
  intro cs
  induction cs with
  | nil => intro w h; simp [findPropsAccess] at h
  | cons c rest ih =>
    intro w h
    rw [findPropsAccess] at h
    split at h
    · exact ⟨_, (Option.some.inj h).symm⟩
    · exact ih w h

theorem extractPropName_eq_sentinel (value : Option String) :
    extractPropName value = spreadSentinel ↔ value = some spreadSentinel := by
  constructor
  · intro h
    match value with
    | none => exact absurd h (by decide)
    | some v =>
      by_cases hv : v = spreadSentinel
      · rw [hv]
      · rw [extractPropName, if_neg hv] at h
        cases hm : matchSimpleIdent v with
        | some w =>
          rw [hm] at h
          obtain ⟨cs, rfl⟩ := matchSimpleIdent_shape v w hm
          exact absurd h (mk_takeWhile_ne_sentinel cs)
        | none =>
          rw [hm] at h
          cases hp : findPropsAccess v.data with
          | some w =>
            rw [hp] at h
            obtain ⟨ds, rfl⟩ := findPropsAccess_shape v.data w hp
            exact absurd h (mk_takeWhile_ne_sentinel ds)
          | none =>
            rw [hp] at h
            exact absurd h hv
  · rintro rfl
    simp [extractPropName]

/-! ## Well-formed attribute names force the sentinel to persist -/

theorem findAttrValue_sentinel_none (attrs : List JsxAttrLike)
    (hwf : attrs.all wfAttrB = true) :
    findAttrValue attrs spreadSentinel = none := by
  induction attrs with
  | nil => rfl
  | cons a rest ih =>
    rw [List.all_cons, Bool.and_eq_true] at hwf
    obtain ⟨ha, hrest⟩ := hwf
    cases a with
    | spreadAttr =>
      simp only [findAttrValue]
      exact ih hrest
    | attr nm line init =>
      simp only [findAttrValue]
      rw [if_neg (by simpa [wfAttrB] using ha)]
      exact ih hrest

theorem foldl_choice_mem (f : JsxElem → JsxElem → JsxElem)
    (hf : ∀ b e, f b e = b ∨ f b e = e) :
    ∀ (l : List JsxElem) (acc : JsxElem) (S : List JsxElem),
      acc ∈ S → (∀ x ∈ l, x ∈ S) → l.foldl f acc ∈ S := by
  intro l
  induction l with
  | nil => intro acc S hacc _; simpa using hacc
  | cons x xs ih =>
    intro acc S hacc hl
    rw [List.foldl_cons]
    apply ih
    · rcases hf acc x with h | h
      · rw [h]; exact hacc
      · rw [h]; exact hl x (by simp)
    · intro y hy; exact hl y (by simp [hy])

theorem closestElem_mem (nearLine : Nat) (m0 : JsxElem)
    (ms : List JsxElem) : closestElem nearLine m0 ms ∈ m0 :: ms := by
  rw [closestElem]
  refine foldl_choice_mem _ ?_ (m0 :: ms) m0 (m0 :: ms) (by simp)
    (fun x hx => hx)
  intro b e
  dsimp only
  split
  · exact Or.inr rfl
  · exact Or.inl rfl

theorem findPropUsageAtLocation_sentinel_of_wf (file : FileModel)
    (comp : String) (near l : Nat) (v : Option String)
    (hwf : wfFileB file = true)
    (h : findPropUsageAtLocation file comp spreadSentinel near =
      some (l, v)) :
    v = some spreadSentinel := by
  simp only [findPropUsageAtLocation] at h
  split at h
  · simp at h
  · rename_i m0 ms hm
    have hclosest : closestElem near m0 ms ∈ m0 :: ms :=
      closestElem_mem near m0 ms
    rw [← hm] at hclosest
    have helem : closestElem near m0 ms ∈ file.elements := by
      rcases List.mem_filter.mp hclosest with ⟨hmem, _⟩
      rcases List.mem_append.mp hmem with hop | hsc
      · exact (List.mem_filter.mp hop).1
      · exact (List.mem_filter.mp hsc).1
    have hattrs : (closestElem near m0 ms).attrs.all wfAttrB = true :=
      (List.all_eq_true.mp hwf) _ helem
    split at h
    · rename_i r heqr
      rw [findAttrValue_sentinel_none _ hattrs] at heqr
      simp at heqr
    · split at h
      · simp only [Option.some.injEq, Prod.mk.injEq] at h
        exact h.2.symm
      · simp at h

theorem findParentGo_sentinel (env : Env) (hwf : WfEnv env)
    (node : PropNode) (hprop : node.propName = spreadSentinel) :
    ∀ (locs : List Loc) (p : PropNode),
      findParentGo env node locs = some p →
      p.propName = spreadSentinel := by
  intro locs
  induction locs with
  | nil => intro p h; simp [findParentGo] at h
  | cons loc rest ih =>
    intro p h
    rw [findParentGo] at h
    split at h
    · exact ih p h
    · split at h
      · rename_i p0 heq
        obtain rfl := Option.some.inj h
        obtain ⟨line, value, hfind, hpn⟩ :=
          analyzeLocation_propName env loc node p0 heq
        rw [hprop] at hfind
        have hv : value = some spreadSentinel :=
          findPropUsageAtLocation_sentinel_of_wf _ _ _ _ _
            (hwf loc.filePath) hfind
        rw [hpn, hv]
        exact (extractPropName_eq_sentinel _).mpr rfl
      · exact ih p h

theorem findParentNode_sentinel (env : Env) (hwf : WfEnv env)
    (node p : PropNode) (hprop : node.propName = spreadSentinel)
    (h : findParentNode env node = some p) :
    p.propName = spreadSentinel := by
  rw [findParentNode] at h
  exact findParentGo_sentinel env hwf node hprop _ p h

/-! ## The traversal loop: accounting of depth, fuel and chain length -/

theorem chainLoop_depth (env : Env) :
    ∀ (fuel depth : Nat) (store : List PropNode) (chain : List Nat)
      (cur : Nat) (amb : Bool),
    ∃ k,
      (chainLoop env fuel depth store chain cur amb).chain.length =
        chain.length + k ∧
      (chainLoop env fuel depth store chain cur amb).depth =
        depth + k +
          (if (chainLoop env fuel depth store chain cur amb).broke then 1
            else 0) ∧
      k ≤ fuel ∧
      ((chainLoop env fuel depth store chain cur amb).broke = false →
        k = fuel) ∧
      ((chainLoop env fuel depth store chain cur amb).broke = true →
        k + 1 ≤ fuel) := by
  intro fuel
  induction fuel with
  | zero =>
    intro depth store chain cur amb
    refine ⟨0, ?_, ?_, ?_, ?_, ?_⟩ <;> simp [chainLoop]
  | succ f ih =>
    intro depth store chain cur amb
    cases hp : findParentNode env (storeGet store cur) with
    | none =>
      refine ⟨0, ?_, ?_, ?_, ?_, ?_⟩ <;> simp [chainLoop, hp]
    | some p =>
      have heq : chainLoop env (f + 1) depth store chain cur amb =
          chainLoop env f (depth + 1)
            (setParent (store ++ [p]) cur (some store.length))
            (chain ++ [store.length]) store.length
            (amb || decide (p.propName = spreadSentinel)) := by
        rw [chainLoop, hp]
      obtain ⟨k, h1, h2, h3, h4, h5⟩ :=
        ih (depth + 1) (setParent (store ++ [p]) cur (some store.length))
          (chain ++ [store.length]) store.length
          (amb || decide (p.propName = spreadSentinel))
      rw [heq]
      have hlen : (chain ++ [store.length]).length = chain.length + 1 := by
        simp
      rw [hlen] at h1
      refine ⟨k + 1, by omega, ?_, by omega, ?_, ?_⟩
      · cases hb : (chainLoop env f (depth + 1)
            (setParent (store ++ [p]) cur (some store.length))
            (chain ++ [store.length]) store.length
            (amb || decide (p.propName = spreadSentinel))).broke <;>
          simp [hb] at h2 ⊢ <;> omega
      · intro hb; have := h4 hb; omega
      · intro hb; have := h5 hb; omega

/-! ## The traversal loop: structural invariant -/

theorem default_parent_none : (default : PropNode).parent = none := rfl

theorem loopInv_step (env : Env) (store : List PropNode) (chain : List Nat)
    (cur : Nat) (p : PropNode) (inv : LoopInv store chain cur)
    (hp : findParentNode env (storeGet store cur) = some p) :
    LoopInv (setParent (store ++ [p]) cur (some store.length))
      (chain ++ [store.length]) store.length := by
  have hcur_lt : cur < store.length :=
    inv.bounded cur (List.mem_of_mem_getLast? inv.lastEq)
  have hlen : (setParent (store ++ [p]) cur (some store.length)).length =
      store.length + 1 := by
    rw [length_setParent, List.length_append, List.length_cons,
      List.length_nil]
  refine ⟨by simp, List.getLast?_concat _, ?_, ?_, ?_, ?_⟩
  · refine List.Chain'.append inv.sorted (List.chain'_singleton _) ?_
    intro x hx y hy
    simp only [List.head?_cons, Option.mem_some_iff] at hy
    subst hy
    have hx' : x = cur := by
      rw [inv.lastEq] at hx
      exact (Option.mem_some_iff.mp hx).symm
    subst hx'
    exact hcur_lt
  · intro i hi
    rw [hlen]
    rcases List.mem_append.mp hi with hi | hi
    · exact Nat.lt_succ_of_lt (inv.bounded i hi)
    · simp only [List.mem_singleton] at hi
      omega
  · refine List.Chain'.append ?_ (List.chain'_singleton _) ?_
    · refine List.Chain'.imp ?_ inv.parentChain
      intro a b hab
      by_cases hacur : a = cur
      · subst hacur
        rw [inv.parentLast] at hab
        exact absurd hab (by simp)
      · rw [parent_setParent_ne _ _ _ _ hacur]
        by_cases ha : a < store.length
        · rw [storeGet_append_lt _ _ _ ha]
          exact hab
        · rw [storeGet] at hab
          rw [List.getD_eq_default _ _ (by omega)] at hab
          exact absurd hab (by simp [default_parent_none])
    · intro x hx y hy
      simp only [List.head?_cons, Option.mem_some_iff] at hy
      subst hy
      have hx' : x = cur := by
        rw [inv.lastEq] at hx
        exact (Option.mem_some_iff.mp hx).symm
      subst hx'
      exact parent_setParent_self _ _ _ (by simp; omega)
  · rw [parent_setParent_ne _ _ _ _ (by omega),
      storeGet_append_len]
    exact findParentNode_parent_none env _ p hp

theorem chainLoop_inv (env : Env) :
    ∀ (fuel depth : Nat) (store : List PropNode) (chain : List Nat)
      (cur : Nat) (amb : Bool),
      LoopInv store chain cur →
      ∃ ext cur',
        (chainLoop env fuel depth store chain cur amb).chain =
          chain ++ ext ∧
        (chainLoop env fuel depth store chain cur amb).chain.getLast? =
          some cur' ∧
        LoopInv (chainLoop env fuel depth store chain cur amb).store
          (chainLoop env fuel depth store chain cur amb).chain cur' ∧
        store.length ≤
          (chainLoop env fuel depth store chain cur amb).store.length ∧
        (∀ i, i < store.length →
          nodeCore
              (storeGet (chainLoop env fuel depth store chain cur amb).store
                i) =
            nodeCore (storeGet store i)) := by
  intro fuel
  induction fuel with
  | zero =>
    intro depth store chain cur amb inv
    refine ⟨[], cur, by simp [chainLoop], ?_, ?_, ?_, ?_⟩ <;>
      simp [chainLoop]
    · exact inv.lastEq
    · exact inv
  | succ f ih =>
    intro depth store chain cur amb inv
    cases hp : findParentNode env (storeGet store cur) with
    | none =>
      have heq : chainLoop env (f + 1) depth store chain cur amb =
          ⟨setType store cur .SOURCE, chain, amb, depth + 1, true⟩ := by
        rw [chainLoop, hp, inv.lastEq]
      rw [heq]
      refine ⟨[], cur, by simp, inv.lastEq, ?_, ?_, ?_⟩
      · refine ⟨inv.ne, inv.lastEq, inv.sorted, ?_, ?_, ?_⟩
        · intro i hi
          rw [length_setType]
          exact inv.bounded i hi
        · refine List.Chain'.imp ?_ inv.parentChain
          intro a b hab
          rw [parent_setType]
          exact hab
        · rw [parent_setType]
          exact inv.parentLast
      · rw [length_setType]
      · intro i _
        exact nodeCore_setType _ _ _ _
    | some p =>
      have heq : chainLoop env (f + 1) depth store chain cur amb =
          chainLoop env f (depth + 1)
            (setParent (store ++ [p]) cur (some store.length))
            (chain ++ [store.length]) store.length
            (amb || decide (p.propName = spreadSentinel)) := by
        rw [chainLoop, hp]
      have inv' := loopInv_step env store chain cur p inv hp
      obtain ⟨ext', cur', h1, h2, h3, h4, h5⟩ :=
        ih (depth + 1) (setParent (store ++ [p]) cur (some store.length))
          (chain ++ [store.length]) store.length
          (amb || decide (p.propName = spreadSentinel)) inv'
      rw [heq]
      have hlen' : (setParent (store ++ [p]) cur (some store.length)).length =
          store.length + 1 := by
        rw [length_setParent, List.length_append, List.length_cons,
          List.length_nil]
      refine ⟨store.length :: ext', cur', ?_, h2, h3, ?_, ?_⟩
      · rw [h1, List.append_assoc]
        rfl
      · omega
      · intro i hi
        have hcur_lt : cur < store.length :=
          inv.bounded cur (List.mem_of_mem_getLast? inv.lastEq)
        rw [h5 i (by omega), nodeCore_setParent,
          storeGet_append_lt _ _ _ hi]

/-! ## The traversal loop: the ambiguity flag -/

theorem chainLoop_amb (env : Env) :
    ∀ (fuel depth : Nat) (store : List PropNode) (chain : List Nat)
      (cur : Nat) (amb : Bool),
      LoopInv store chain cur →
      ((chainLoop env fuel depth store chain cur amb).ambiguous = true ↔
        amb = true ∨
        ∃ i ∈ (chainLoop env fuel depth store chain cur amb).chain.drop
            chain.length,
          (storeGet (chainLoop env fuel depth store chain cur amb).store
              i).propName = spreadSentinel) := by
  intro fuel
  induction fuel with
  | zero =>
    intro depth store chain cur amb inv
    simp [chainLoop]
  | succ f ih =>
    intro depth store chain cur amb inv
    cases hp : findParentNode env (storeGet store cur) with
    | none =>
      have heq : chainLoop env (f + 1) depth store chain cur amb =
          ⟨setType store cur .SOURCE, chain, amb, depth + 1, true⟩ := by
        rw [chainLoop, hp, inv.lastEq]
      rw [heq]
      simp
    | some p =>
      have heq : chainLoop env (f + 1) depth store chain cur amb =
          chainLoop env f (depth + 1)
            (setParent (store ++ [p]) cur (some store.length))
            (chain ++ [store.length]) store.length
            (amb || decide (p.propName = spreadSentinel)) := by
        rw [chainLoop, hp]
      have inv' := loopInv_step env store chain cur p inv hp
      have hih := ih (depth + 1)
        (setParent (store ++ [p]) cur (some store.length))
        (chain ++ [store.length]) store.length
        (amb || decide (p.propName = spreadSentinel)) inv'
      obtain ⟨ext', cur', hchain, _, _, hslen, hcore⟩ :=
        chainLoop_inv env f (depth + 1)
          (setParent (store ++ [p]) cur (some store.length))
          (chain ++ [store.length]) store.length
          (amb || decide (p.propName = spreadSentinel)) inv'
      rw [heq]
      have hlen' : (setParent (store ++ [p]) cur (some store.length)).length =
          store.length + 1 := by
        rw [length_setParent, List.length_append, List.length_cons,
          List.length_nil]
      have hchain2 : (chainLoop env f (depth + 1)
          (setParent (store ++ [p]) cur (some store.length))
          (chain ++ [store.length]) store.length
          (amb || decide (p.propName = spreadSentinel))).chain =
          chain ++ (store.length :: ext') := by
        rw [hchain, List.append_assoc]
        rfl
      have hd1 : (chainLoop env f (depth + 1)
          (setParent (store ++ [p]) cur (some store.length))
          (chain ++ [store.length]) store.length
          (amb || decide (p.propName = spreadSentinel))).chain.drop
            chain.length = store.length :: ext' := by
        rw [hchain2, List.drop_left]
      have hd2 : (chainLoop env f (depth + 1)
          (setParent (store ++ [p]) cur (some store.length))
          (chain ++ [store.length]) store.length
          (amb || decide (p.propName = spreadSentinel))).chain.drop
            (chain ++ [store.length]).length = ext' := by
        rw [hchain, List.drop_left]
      rw [hd2] at hih
      rw [hih, hd1]
      have hPj : (storeGet (chainLoop env f (depth + 1)
          (setParent (store ++ [p]) cur (some store.length))
          (chain ++ [store.length]) store.length
          (amb || decide (p.propName = spreadSentinel))).store
            store.length).propName = p.propName := by
        have h1 := hcore store.length (by omega)
        have hcur_lt : cur < store.length :=
          inv.bounded cur (List.mem_of_mem_getLast? inv.lastEq)
        rw [nodeCore_setParent, storeGet_append_len] at h1
        exact propName_nodeCore h1
      rw [List.exists_mem_cons_iff, hPj]
      simp only [Bool.or_eq_true, decide_eq_true_eq]
      tauto

/-! ## The traversal loop: sentinel propagation along the chain -/

theorem chainLoop_sentinelChain (env : Env) (hwf : WfEnv env) :
    ∀ (fuel depth : Nat) (store : List PropNode) (chain : List Nat)
      (cur : Nat) (amb : Bool),
      LoopInv store chain cur →
      List.Chain' (fun a b => a = spreadSentinel → b = spreadSentinel)
        (propsOf store chain) →
      List.Chain' (fun a b => a = spreadSentinel → b = spreadSentinel)
        (propsOf (chainLoop env fuel depth store chain cur amb).store
          (chainLoop env fuel depth store chain cur amb).chain) := by
  intro fuel
  induction fuel with
  | zero =>
    intro depth store chain cur amb inv hch
    simpa [chainLoop] using hch
  | succ f ih =>
    intro depth store chain cur amb inv hch
    cases hp : findParentNode env (storeGet store cur) with
    | none =>
      have heq : chainLoop env (f + 1) depth store chain cur amb =
          ⟨setType store cur .SOURCE, chain, amb, depth + 1, true⟩ := by
        rw [chainLoop, hp, inv.lastEq]
      rw [heq]
      have hprops : propsOf (setType store cur .SOURCE) chain =
          propsOf store chain := by
        refine List.map_congr_left ?_
        intro a _
        exact propName_nodeCore (nodeCore_setType _ _ _ _)
      simpa [hprops] using hch
    | some p =>
      have heq : chainLoop env (f + 1) depth store chain cur amb =
          chainLoop env f (depth + 1)
            (setParent (store ++ [p]) cur (some store.length))
            (chain ++ [store.length]) store.length
            (amb || decide (p.propName = spreadSentinel)) := by
        rw [chainLoop, hp]
      have inv' := loopInv_step env store chain cur p inv hp
      have hcur_lt : cur < store.length :=
        inv.bounded cur (List.mem_of_mem_getLast? inv.lastEq)
      have hch' : List.Chain'
          (fun a b => a = spreadSentinel → b = spreadSentinel)
          (propsOf (setParent (store ++ [p]) cur (some store.length))
            (chain ++ [store.length])) := by
        have hsplit : propsOf (setParent (store ++ [p]) cur
            (some store.length)) (chain ++ [store.length]) =
            propsOf store chain ++ [p.propName] := by
          rw [propsOf, List.map_append]
          congr 1
          · refine List.map_congr_left ?_
            intro a ha
            exact propName_nodeCore
              ((nodeCore_setParent _ _ _ _).trans
                (congrArg nodeCore
                  (storeGet_append_lt _ _ _ (inv.bounded a ha))))
          · simp only [List.map_cons, List.map_nil]
            rw [setParent, storeGet_set_ne _ _ _ _ (by omega),
              storeGet_append_len]
        rw [hsplit]
        refine List.Chain'.append hch (List.chain'_singleton _) ?_
        intro x hx y hy
        simp only [List.head?_cons, Option.mem_some_iff] at hy
        subst hy
        have hxval : x = (storeGet store cur).propName := by
          rw [propsOf, List.getLast?_map, inv.lastEq] at hx
          exact (Option.mem_some_iff.mp hx).symm
        subst hxval
        intro hs
        exact findParentNode_sentinel env hwf _ p hs hp
      rw [heq]
      exact ih (depth + 1) _ _ _ _ inv' hch'

/-! ## The final classification pass -/

theorem fold_setType_length (l : List Nat) (s : List PropNode) :
    (l.foldl (fun s i => setType s i .USAGE) s).length = s.length := by
  induction l generalizing s with
  | nil => rfl
  | cons a t ih => rw [List.foldl_cons, ih, length_setType]

theorem fold_setType_core (l : List Nat) (s : List PropNode) (k : Nat) :
    nodeCore (storeGet (l.foldl (fun s i => setType s i .USAGE) s) k) =
      nodeCore (storeGet s k) := by
  induction l generalizing s with
  | nil => rfl
  | cons a t ih => rw [List.foldl_cons, ih, nodeCore_setType]

theorem fold_setType_parent (l : List Nat) (s : List PropNode) (k : Nat) :
    (storeGet (l.foldl (fun s i => setType s i .USAGE) s) k).parent =
      (storeGet s k).parent := by
  induction l generalizing s with
  | nil => rfl
  | cons a t ih => rw [List.foldl_cons, ih, parent_setType]

theorem fold_setType_not_mem (l : List Nat) (s : List PropNode) (k : Nat)
    (hk : k ∉ l) :
    (storeGet (l.foldl (fun s i => setType s i .USAGE) s) k).type =
      (storeGet s k).type := by
  induction l generalizing s with
  | nil => rfl
  | cons a t ih =>
    have h1 : k ≠ a := fun h => hk (by simp [h])
    have h2 : k ∉ t := fun h => hk (by simp [h])
    rw [List.foldl_cons, ih _ h2, type_setType_ne _ _ _ _ h1]

theorem fold_setType_mem (l : List Nat) (s : List PropNode) (k : Nat)
    (hmem : k ∈ l) (hk : k < s.length) :
    (storeGet (l.foldl (fun s i => setType s i .USAGE) s) k).type =
      .USAGE := by
  induction l generalizing s with
  | nil => simp at hmem
  | cons a t ih =>
    rw [List.foldl_cons]
    by_cases ht : k ∈ t
    · exact ih _ ht (by rw [length_setType]; exact hk)
    · have ha : k = a := by
        rcases List.mem_cons.mp hmem with h | h
        · exact h
        · exact absurd h ht
      subst ha
      rw [fold_setType_not_mem _ _ _ ht, type_setType_self _ _ _ hk]

theorem overwrite_length (store : List PropNode) (rev : List Nat) :
    (overwriteTypes store rev).length = store.length := by
  cases rev with
  | nil => rfl
  | cons f rest =>
    simp only [overwriteTypes]
    cases hl : rest.getLast? with
    | none => rw [length_setType]
    | some lastIdx => rw [fold_setType_length, length_setType, length_setType]

theorem overwrite_core (store : List PropNode) (rev : List Nat) (k : Nat) :
    nodeCore (storeGet (overwriteTypes store rev) k) =
      nodeCore (storeGet store k) := by
  cases rev with
  | nil => rfl
  | cons f rest =>
    simp only [overwriteTypes]
    cases hl : rest.getLast? with
    | none => rw [nodeCore_setType]
    | some lastIdx =>
      rw [fold_setType_core, nodeCore_setType, nodeCore_setType]

theorem overwrite_parent (store : List PropNode) (rev : List Nat)
    (k : Nat) : (storeGet (overwriteTypes store rev) k).parent =
      (storeGet store k).parent := by
  cases rev with
  | nil => rfl
  | cons f rest =>
    simp only [overwriteTypes]
    cases hl : rest.getLast? with
    | none => rw [parent_setType]
    | some lastIdx =>
      rw [fold_setType_parent, parent_setType, parent_setType]

theorem overwrite_head_type (store : List PropNode) (f : Nat)
    (rest : List Nat) (hf : f < store.length) (hnf : f ∉ rest) :
    (storeGet (overwriteTypes store (f :: rest)) f).type = .SOURCE := by
  simp only [overwriteTypes]
  cases hl : rest.getLast? with
  | none => exact type_setType_self _ _ _ hf
  | some lastIdx =>
    have hlast_mem : lastIdx ∈ rest := List.mem_of_mem_getLast? hl
    have h1 : f ≠ lastIdx := fun h => hnf (h ▸ hlast_mem)
    have h2 : f ∉ rest.dropLast := fun h => hnf (List.dropLast_subset _ h)
    rw [fold_setType_not_mem _ _ _ h2, type_setType_ne _ _ _ _ h1,
      type_setType_self _ _ _ hf]

theorem overwrite_last_type (store : List PropNode) (f : Nat)
    (rest : List Nat) (lastIdx : Nat) (hl : rest.getLast? = some lastIdx)
    (hnodup : (f :: rest).Nodup) (hlt : lastIdx < store.length) :
    (storeGet (overwriteTypes store (f :: rest)) lastIdx).type =
      .DEFINITION := by
  simp only [overwriteTypes, hl]
  have hx : lastIdx ∉ rest.dropLast := by
    have hsplit := List.dropLast_append_getLast? lastIdx hl
    have hnd : rest.Nodup := (List.nodup_cons.mp hnodup).2
    rw [← hsplit] at hnd
    have hdisj := (List.nodup_append.mp hnd).2.2
    intro hmem
    exact hdisj hmem (by simp)
  rw [fold_setType_not_mem _ _ _ hx,
    type_setType_self _ _ _ (by rw [length_setType]; exact hlt)]

theorem overwrite_interior_type (store : List PropNode) (f : Nat)
    (rest : List Nat) (k : Nat) (hk : k ∈ rest.dropLast)
    (hklt : k < store.length) :
    (storeGet (overwriteTypes store (f :: rest)) k).type = .USAGE := by
  cases hl : rest.getLast? with
  | none =>
    have : rest = [] := List.getLast?_eq_none_iff.mp hl
    subst this
    simp at hk
  | some lastIdx =>
    simp only [overwriteTypes, hl]
    exact fold_setType_mem _ _ _ hk
      (by rw [length_setType, length_setType]; exact hklt)

/-! ## Structure of a finished run -/

theorem initialNode_inv (env : Env) (fp comp prop : String) :
    LoopInv [initialNode env fp comp prop] [0] 0 := by
  refine ⟨by simp, by simp, List.chain'_singleton _, ?_,
    List.chain'_singleton _, rfl⟩
  intro i hi
  simp only [List.mem_singleton] at hi
  subst hi
  simp

theorem buildRun_spec (env : Env) (maxDepth : Nat) (fp comp prop : String) :
    ∃ ext cur',
      (buildRun env maxDepth fp comp prop).chain = 0 :: ext ∧
      (buildRun env maxDepth fp comp prop).chain.getLast? = some cur' ∧
      LoopInv (buildRun env maxDepth fp comp prop).store
        (buildRun env maxDepth fp comp prop).chain cur' ∧
      1 ≤ (buildRun env maxDepth fp comp prop).store.length ∧
      nodeCore (storeGet (buildRun env maxDepth fp comp prop).store 0) =
        nodeCore (initialNode env fp comp prop) := by
  obtain ⟨ext, cur', h1, h2, h3, h4, h5⟩ :=
    chainLoop_inv env maxDepth 0 [initialNode env fp comp prop] [0] 0 false
      (initialNode_inv env fp comp prop)
  rw [buildRun]
  refine ⟨ext, cur', by simpa using h1, h2, h3, by simpa using h4, ?_⟩
  have := h5 0 (by simp)
  simpa using this

theorem trace_chainIdx (env : Env) (maxDepth : Nat)
    (fp comp prop : String) :
    (buildPropChain env maxDepth fp comp prop).chainIdx =
      (buildRun env maxDepth fp comp prop).chain.reverse := rfl

theorem trace_store (env : Env) (maxDepth : Nat) (fp comp prop : String) :
    (buildPropChain env maxDepth fp comp prop).store =
      overwriteTypes (buildRun env maxDepth fp comp prop).store
        ((buildRun env maxDepth fp comp prop).chain.reverse) := rfl

theorem trace_ambiguous (env : Env) (maxDepth : Nat)
    (fp comp prop : String) :
    (buildPropChain env maxDepth fp comp prop).ambiguous =
      (buildRun env maxDepth fp comp prop).ambiguous := rfl

theorem trace_isComplete (env : Env) (maxDepth : Nat)
    (fp comp prop : String) :
    (buildPropChain env maxDepth fp comp prop).isComplete =
      decide ((buildRun env maxDepth fp comp prop).depth < maxDepth) := rfl

theorem trace_chain_eq (env : Env) (maxDepth : Nat)
    (fp comp prop : String) :
    (buildPropChain env maxDepth fp comp prop).chain =
      ((buildRun env maxDepth fp comp prop).chain.reverse).map
        (storeGet (buildPropChain env maxDepth fp comp prop).store) := rfl

/-! ## Claim theorems -/

/-- C1: every trace's chain is non-empty and its first node is classified
SOURCE; when the chain is longer than one node, its last node is
DEFINITION and every interior node is USAGE; a length-1 chain's sole node
carries the SOURCE classification and is itself the node built for the
requested component and prop (the single `type` field cannot hold two
labels at once, so "simultaneously SOURCE and DEFINITION" is read as:
the sole node is the SOURCE terminus and at the same time the requested
definition's node). -/
theorem C1_chain_classification (env : Env) (maxDepth : Nat)
    (fp comp prop : String) :
    (buildPropChain env maxDepth fp comp prop).chain ≠ [] ∧
    (∀ h, (buildPropChain env maxDepth fp comp prop).chain.head? = some h →
      h.type = .SOURCE) ∧
    (1 < (buildPropChain env maxDepth fp comp prop).chain.length →
      (∀ l, (buildPropChain env maxDepth fp comp prop).chain.getLast? =
          some l → l.type = .DEFINITION) ∧
      (∀ i, 0 < i →
        i + 1 < (buildPropChain env maxDepth fp comp prop).chain.length →
        ((buildPropChain env maxDepth fp comp prop).chain.getD i
            default).type = .USAGE)) ∧
    ((buildPropChain env maxDepth fp comp prop).chain.length = 1 →
      ∃ n, (buildPropChain env maxDepth fp comp prop).chain = [n] ∧
        n.type = .SOURCE ∧ n.componentName = comp ∧ n.propName = prop) := by
  obtain ⟨ext, cur', hchain, hlast, hinv, hslen, hcore0⟩ :=
    buildRun_spec env maxDepth fp comp prop
  rw [trace_chain_eq, trace_store]
  set r := buildRun env maxDepth fp comp prop with hrdef
  have hrne : r.chain ≠ [] := by rw [hchain]; simp
  have hrevne : r.chain.reverse ≠ [] :=
    fun h => hrne (List.reverse_eq_nil_iff.mp h)
  obtain ⟨f, rest, hrev⟩ := List.exists_cons_of_ne_nil hrevne
  have hnodup : (f :: rest).Nodup := by
    rw [← hrev]
    exact List.nodup_reverse.mpr
      ((List.chain'_iff_pairwise.mp hinv.sorted).nodup)
  have hbound : ∀ i ∈ f :: rest, i < r.store.length := by
    rw [← hrev]
    intro i hi
    exact hinv.bounded i (List.mem_reverse.mp hi)
  have h0 : (f :: rest).getLast? = some 0 := by
    rw [← hrev, List.getLast?_reverse, hchain]
    rfl
  rw [hrev]
  refine ⟨by simp, ?_, ?_, ?_⟩
  · intro h hh
    simp only [List.map_cons, List.head?_cons, Option.some.injEq] at hh
    subst hh
    exact overwrite_head_type r.store f rest
      (hbound f (List.mem_cons_self f rest)) ((List.nodup_cons.mp hnodup).1)
  · intro hlen
    simp only [List.length_map, List.length_cons] at hlen
    have hrestne : rest ≠ [] := by
      intro h
      rw [h] at hlen
      simp at hlen
    obtain ⟨x, xs, hxs⟩ := List.exists_cons_of_ne_nil hrestne
    have hrl : rest.getLast? = some 0 := by
      rw [hxs]
      rw [hxs, List.getLast?_cons_cons] at h0
      exact h0
    have h0mem : (0 : Nat) ∈ f :: rest :=
      List.mem_cons_of_mem f (List.mem_of_mem_getLast? hrl)
    constructor
    · intro l hl
      rw [List.getLast?_map] at hl
      rw [h0] at hl
      simp only [Option.map_some', Option.some.injEq] at hl
      subst hl
      exact overwrite_last_type r.store f rest 0 hrl hnodup
        (hbound 0 h0mem)
    · intro i hi0 hi1
      obtain ⟨i', rfl⟩ : ∃ i', i = i' + 1 := ⟨i - 1, by omega⟩
      simp only [List.length_map, List.length_cons] at hi1
      have hii : i' + 1 < ((f :: rest).map
          (storeGet (overwriteTypes r.store (f :: rest)))).length := by
        simp only [List.length_map, List.length_cons]
        omega
      rw [List.getD_eq_getElem _ _ hii, List.getElem_map,
        List.getElem_cons_succ]
      have hlt : i' < rest.dropLast.length := by
        rw [List.length_dropLast]
        omega
      have hmemd : rest[i'] ∈ rest.dropLast := by
        have hd := List.getElem_dropLast rest i' hlt
        rw [← hd]
        exact List.getElem_mem hlt
      refine overwrite_interior_type r.store f rest _ hmemd
        (hbound _ (List.mem_cons_of_mem f ?_))
      exact List.getElem_mem (by omega)
  · intro hlen1
    simp only [List.length_map, List.length_cons] at hlen1
    have hrest0 : rest = [] := by
      have : rest.length = 0 := by omega
      exact List.eq_nil_of_length_eq_zero this
    subst hrest0
    have hf0 : f = 0 := by
      simp only [List.getLast?_singleton, Option.some.injEq] at h0
      exact h0
    subst hf0
    refine ⟨_, rfl, ?_, ?_, ?_⟩
    · exact overwrite_head_type r.store 0 []
        (hbound 0 (List.mem_cons_self 0 [])) (by simp)
    · have hc := (overwrite_core r.store (0 :: []) 0).trans hcore0
      exact componentName_nodeCore hc
    · have hc := (overwrite_core r.store (0 :: []) 0).trans hcore0
      exact propName_nodeCore hc

/-- C1 witness: the orphan trace in the empty workspace is a length-1
chain whose sole node is the SOURCE-classified requested definition. -/
theorem C1_witness :
    (buildPropChain envEmpty 20 "X.tsx" "Orphan" "p").chain.length = 1 ∧
    ∃ n, (buildPropChain envEmpty 20 "X.tsx" "Orphan" "p").chain = [n] ∧
      n.type = .SOURCE ∧ n.componentName = "Orphan" ∧ n.propName = "p" :=
  ⟨by decide,
   (C1_chain_classification envEmpty 20 "X.tsx" "Orphan" "p").2.2.2
     (by decide)⟩

/-- C9: the returned chain is parent-linked, not a sequence of
independent records: the first (SOURCE) node's parent reference is null,
and for every later position `i + 1` the node's parent reference is
exactly the arena slot holding the node at position `i`, whose stored
object is the chain's `i`-th entry. -/
theorem C9_parent_links (env : Env) (maxDepth : Nat)
    (fp comp prop : String) :
    (∀ h, (buildPropChain env maxDepth fp comp prop).chain.head? = some h →
      h.parent = none) ∧
    (∀ i, i + 1 <
        (buildPropChain env maxDepth fp comp prop).chainIdx.length →
      ((buildPropChain env maxDepth fp comp prop).chain.getD (i + 1)
          default).parent =
        some ((buildPropChain env maxDepth fp comp prop).chainIdx.getD
          i 0) ∧
      storeGet (buildPropChain env maxDepth fp comp prop).store
          ((buildPropChain env maxDepth fp comp prop).chainIdx.getD i 0) =
        (buildPropChain env maxDepth fp comp prop).chain.getD i default) := by
  obtain ⟨ext, cur', hchain, hlast, hinv, hslen, hcore0⟩ :=
    buildRun_spec env maxDepth fp comp prop
  rw [trace_chain_eq, trace_store, trace_chainIdx]
  set r := buildRun env maxDepth fp comp prop with hrdef
  have hrevchain : List.Chain'
      (fun a b => (storeGet r.store b).parent = some a)
      r.chain.reverse := by
    rw [List.chain'_reverse]
    exact hinv.parentChain
  constructor
  · intro h hh
    rw [List.head?_map, List.head?_reverse, hlast] at hh
    simp only [Option.map_some', Option.some.injEq] at hh
    subst hh
    rw [overwrite_parent]
    exact hinv.parentLast
  · intro i hi
    have hi0 : i < r.chain.reverse.length := by omega
    have hrel := List.chain'_iff_get.mp hrevchain i (by omega)
    simp only [List.get_eq_getElem] at hrel
    constructor
    · rw [List.getD_eq_getElem _ _
        (by simpa using hi : i + 1 < (r.chain.reverse.map
          (storeGet (overwriteTypes r.store r.chain.reverse))).length),
        List.getElem_map, overwrite_parent,
        List.getD_eq_getElem _ 0 hi0]
      exact hrel
    · rw [List.getD_eq_getElem _ 0 hi0,
        List.getD_eq_getElem _ _
          (by simpa using hi0 : i < (r.chain.reverse.map
            (storeGet (overwriteTypes r.store r.chain.reverse))).length),
        List.getElem_map]

/-- C9 witness: in the Scenario A trace the second node's parent
reference is the slot of the first node. -/
theorem C9_witness :
    ((buildPropChain envA 20 "Child.tsx" "Child" "label").chain.getD 1
        default).parent =
      some ((buildPropChain envA 20 "Child.tsx" "Child"
        "label").chainIdx.getD 0 0) ∧
    storeGet (buildPropChain envA 20 "Child.tsx" "Child" "label").store
        ((buildPropChain envA 20 "Child.tsx" "Child" "label").chainIdx.getD
          0 0) =
      (buildPropChain envA 20 "Child.tsx" "Child" "label").chain.getD 0
        default :=
  (C9_parent_links envA 20 "Child.tsx" "Child" "label").2 0 (by decide)

/-- C2 as frozen is refuted at a workspace with a linear chain of exactly
19 resolvable parent hops: the twentieth loop iteration terminates at the
EXHAUSTED case (no parent resolves), yet `isComplete` is false, because
the final `depth >= maxDepth` check cannot tell that last-iteration
EXHAUSTED termination from depth exhaustion. -/
theorem C2_counterexample :
    ¬ ((buildPropChain envLin GraphBuilder.maxDepth "F0" "C0"
          "p").isComplete = false ↔
        exhaustedBreak envLin GraphBuilder.maxDepth "F0" "C0" "p" =
          false) := by
  decide

/-- C2 amended: `isComplete == false` iff the traversal either advanced
through all `maxDepth` hops without an EXHAUSTED termination, or its
EXHAUSTED termination fell on the final permitted iteration (equivalently
`chain.length == maxDepth`); a trace that reaches its terminal SOURCE in
fewer than `maxDepth` iterations returns `isComplete == true`. -/
theorem C2_amended (env : Env) (maxDepth : Nat) (fp comp prop : String) :
    (buildPropChain env maxDepth fp comp prop).isComplete = false ↔
      (exhaustedBreak env maxDepth fp comp prop = false ∨
        (buildPropChain env maxDepth fp comp prop).chain.length =
          maxDepth) := by
  obtain ⟨k, h1, h2, h3, h4, h5⟩ :=
    chainLoop_depth env maxDepth 0 [initialNode env fp comp prop] [0] 0
      false
  have hb : buildRun env maxDepth fp comp prop =
      chainLoop env maxDepth 0 [initialNode env fp comp prop] [0] 0
        false := rfl
  rw [← hb] at h1 h2 h4 h5
  have hlen : (buildPropChain env maxDepth fp comp prop).chain.length =
      k + 1 := by
    rw [trace_chain_eq, List.length_map, List.length_reverse, h1]
    simp [Nat.add_comm]
  have hex : exhaustedBreak env maxDepth fp comp prop =
      (buildRun env maxDepth fp comp prop).broke := rfl
  rw [trace_isComplete, hlen, hex]
  simp only [decide_eq_false_iff_not, Nat.not_lt]
  cases hbk : (buildRun env maxDepth fp comp prop).broke
  · have hk := h4 hbk
    rw [hbk] at h2
    simp at h2
    constructor
    · intro _; exact Or.inl rfl
    · intro _; omega
  · have hk := h5 hbk
    rw [hbk] at h2
    simp at h2
    constructor
    · intro hge
      exact Or.inr (by omega)
    · rintro (h | h)
      · exact absurd h (by simp)
      · omega

theorem chainLoop_sticky (env : Env) :
    ∀ (fuel depth : Nat) (store : List PropNode) (chain : List Nat)
      (cur : Nat),
      (chainLoop env fuel depth store chain cur true).ambiguous = true := by
  intro fuel
  induction fuel with
  | zero => intro depth store chain cur; simp [chainLoop]
  | succ f ih =>
    intro depth store chain cur
    cases hp : findParentNode env (storeGet store cur) with
    | none =>
      cases hc : chain.getLast? <;> simp [chainLoop, hp, hc]
    | some p =>
      have heq : chainLoop env (f + 1) depth store chain cur true =
          chainLoop env f (depth + 1)
            (setParent (store ++ [p]) cur (some store.length))
            (chain ++ [store.length]) store.length
            (true || decide (p.propName = spreadSentinel)) := by
        rw [chainLoop, hp]
      rw [heq, Bool.true_or]
      exact ih (depth + 1) _ _ _

/-- C4: the trace's `ambiguous` flag is true exactly when some hop's
resolved prop is the spread sentinel (the hops are all returned chain
entries except the final requested-definition node); the flag is sticky
(a loop entered with the flag set keeps it set); and a sentinel-resolved
hop advances the traversal one level up — it is pushed and becomes the
new current node — rather than terminating it. -/
theorem C4_ambiguous_flag :
    (∀ (env : Env) (maxDepth : Nat) (fp comp prop : String),
      ((buildPropChain env maxDepth fp comp prop).ambiguous = true ↔
        ∃ n ∈ (buildPropChain env maxDepth fp comp prop).chain.dropLast,
          n.propName = spreadSentinel)) ∧
    (∀ (env : Env) (fuel depth : Nat) (store : List PropNode)
        (chain : List Nat) (cur : Nat),
      (chainLoop env fuel depth store chain cur true).ambiguous = true) ∧
    (∀ (env : Env) (fuel depth : Nat) (store : List PropNode)
        (chain : List Nat) (cur : Nat) (amb : Bool) (p : PropNode),
      findParentNode env (storeGet store cur) = some p →
      p.propName = spreadSentinel →
      chainLoop env (fuel + 1) depth store chain cur amb =
        chainLoop env fuel (depth + 1)
          (setParent (store ++ [p]) cur (some store.length))
          (chain ++ [store.length]) store.length true) := by
  refine ⟨?_, chainLoop_sticky, ?_⟩
  · intro env maxDepth fp comp prop
    obtain ⟨ext, cur', hchain, hlast, hinv, hslen, hcore0⟩ :=
      buildRun_spec env maxDepth fp comp prop
    have hamb := chainLoop_amb env maxDepth 0
      [initialNode env fp comp prop] [0] 0 false
      (initialNode_inv env fp comp prop)
    have hb : buildRun env maxDepth fp comp prop =
        chainLoop env maxDepth 0 [initialNode env fp comp prop] [0] 0
          false := rfl
    rw [← hb] at hamb
    set r := buildRun env maxDepth fp comp prop with hrdef
    have hdrop : List.drop [0].length r.chain = ext := by
      rw [hchain]
      rfl
    rw [hdrop] at hamb
    rw [trace_ambiguous, hamb]
    have hdl : (buildPropChain env maxDepth fp comp prop).chain.dropLast =
        (ext.reverse).map
          (storeGet (overwriteTypes r.store r.chain.reverse)) := by
      rw [trace_chain_eq, trace_store, hchain, List.reverse_cons,
        List.map_append]
      exact List.dropLast_concat
    rw [hdl]
    simp only [List.mem_map, List.mem_reverse, Bool.false_eq_true,
      false_or]
    constructor
    · rintro ⟨i, hi, hP⟩
      refine ⟨storeGet (overwriteTypes r.store r.chain.reverse) i,
        ⟨i, hi, rfl⟩, ?_⟩
      rw [propName_nodeCore (overwrite_core r.store r.chain.reverse i)]
      exact hP
    · rintro ⟨n, ⟨i, hi, rfl⟩, hP⟩
      refine ⟨i, hi, ?_⟩
      rw [← propName_nodeCore (overwrite_core r.store r.chain.reverse i)]
      exact hP
  · intro env fuel depth store chain cur amb p hp hps
    have heq : chainLoop env (fuel + 1) depth store chain cur amb =
        chainLoop env fuel (depth + 1)
          (setParent (store ++ [p]) cur (some store.length))
          (chain ++ [store.length]) store.length
          (amb || decide (p.propName = spreadSentinel)) := by
      rw [chainLoop, hp]
    rw [heq, hps]
    simp

/-- C4 witness: the three-file spread chain produces an ambiguous trace,
through the sentinel-resolved hop recorded on its dropLast segment. -/
theorem C4_witness :
    (buildPropChain envSp 20 "C.tsx" "Child" "label").ambiguous = true :=
  (C4_ambiguous_flag.1 envSp 20 "C.tsx" "Child" "label").mpr (by decide)

/-- C5: every chain has between 1 and `maxDepth + 1` nodes, and the
two-component usage cycle at the default depth bound 20 yields exactly
`maxDepth + 1` nodes (and an incomplete trace). -/
theorem C5_length_bound :
    (∀ (env : Env) (maxDepth : Nat) (fp comp prop : String),
      1 ≤ (buildPropChain env maxDepth fp comp prop).chain.length ∧
      (buildPropChain env maxDepth fp comp prop).chain.length ≤
        maxDepth + 1) ∧
    ((buildPropChain envCyc GraphBuilder.maxDepth "A" "CompA"
        "p").chain.length = GraphBuilder.maxDepth + 1 ∧
      (buildPropChain envCyc GraphBuilder.maxDepth "A" "CompA"
        "p").isComplete = false) := by
  constructor
  · intro env maxDepth fp comp prop
    obtain ⟨k, h1, h2, h3, h4, h5⟩ :=
      chainLoop_depth env maxDepth 0 [initialNode env fp comp prop] [0] 0
        false
    have hb : buildRun env maxDepth fp comp prop =
        chainLoop env maxDepth 0 [initialNode env fp comp prop] [0] 0
          false := rfl
    rw [← hb] at h1
    have hlen : (buildPropChain env maxDepth fp comp prop).chain.length =
        k + 1 := by
      rw [trace_chain_eq, List.length_map, List.length_reverse, h1]
      simp [Nat.add_comm]
    rw [hlen]
    omega
  · exact ⟨by decide, by decide⟩

/-- C3 as frozen is refuted on Scenario A itself: the SOURCE hop's
recorded prop name is the literal text `"hi"` (the resolved attribute
value, quotes included, as `extractPropName` falls through to it), not
`label`. -/
theorem C3_counterexample :
    ¬ (((buildPropChain envA 20 "Child.tsx" "Child" "label").chain.map
        PropNode.propName).head? = some "label") ∧
    ((buildPropChain envA 20 "Child.tsx" "Child" "label").chain.map
        PropNode.propName).head? = some "\"hi\"" :=
  ⟨by decide, by decide⟩

/-- C3 amended: Scenario A yields a chain of length 2 —
`[(Parent, "hi"-literal, SOURCE), (Child, label, DEFINITION)]` — with
`isComplete = true` and `ambiguous = false`; the SOURCE hop's recorded
prop name is the quoted literal text, not `label`. -/
theorem C3_amended :
    (buildPropChain envA 20 "Child.tsx" "Child" "label").chain.map
        (fun n => (n.componentName, n.propName, n.type)) =
      [("Parent", "\"hi\"", NodeType.SOURCE),
       ("Child", "label", NodeType.DEFINITION)] ∧
    (buildPropChain envA 20 "Child.tsx" "Child" "label").isComplete =
      true ∧
    (buildPropChain envA 20 "Child.tsx" "Child" "label").ambiguous =
      false :=
  ⟨by decide, by decide, by decide⟩

/-- C6: `findPropUsage` gathers only `JsxOpeningElement` descendants, so
it returns null on a file whose matching tag is self-closing, while the
sibling `findPropUsageAtLocation` (which gathers both kinds) resolves the
same attribute; the repository's standalone analyzer tests and the spec
require the self-closing tag to be found. -/
theorem C6_selfclosing_divergence :
    findPropUsage selfClosingFile "Input" "placeholder" = none ∧
    findPropUsageAtLocation selfClosingFile "Input" "placeholder" 1 =
      some (1, some "\"Enter text\"") :=
  ⟨by decide, by decide⟩

theorem endsWithB_trans {s a b : String} (hab : endsWithB a b = true)
    (hsa : endsWithB s a = true) : endsWithB s b = true := by
  rw [endsWithB, List.isSuffixOf_iff_suffix] at hab hsa ⊢
  exact hab.trans hsa

theorem wrapperNameHit_eq (s : String) :
    wrapperNameHit s = wrapperSuffixHit s := by
  have h1 : endsWithB s "React.memo" = true →
      endsWithB s "memo" = true :=
    endsWithB_trans (by decide)
  have h2 : endsWithB s "React.forwardRef" = true →
      endsWithB s "forwardRef" = true :=
    endsWithB_trans (by decide)
  rw [← Bool.coe_iff_coe]
  simp only [wrapperNameHit, wrapperSuffixHit, wrapperFunctions,
    List.any_cons, List.any_nil, Bool.or_eq_true, Bool.or_false,
    Bool.false_eq_true, or_false]
  tauto

/-- C7 as frozen is refuted: `const Foo = disconnect(() => ...)` is
recognized as a component although `disconnect` is none of the four
recognized wrappers (nor a namespace-qualified form of one) — the source
tests the callee with `endsWith`. -/
theorem C7_counterexample :
    (extractComponentFromVariable emptyFile "f.tsx"
      fooDisconnectDecl).isSome = true ∧
    claimWrapperName "disconnect" = false :=
  ⟨by decide, by decide⟩

/-- C7 amended: a call-initialized variable is recognized iff its name
starts with an uppercase letter, the callee's printed name merely ends
with one of `memo`, `forwardRef`, `observer`, `connect` (so `React.memo`
qualifies, but so does any name with such a suffix, e.g. `disconnect`),
and the first call argument is an arrow function or function expression;
lowercase-named variable declarations are never candidates. -/
theorem C7_amended :
    (∀ (file : FileModel) (fp nm : String) (sl : Nat) (vsl : Option Nat)
        (tn : Option TypeNode) (callee : CalleeExpr) (args : List CallArg),
      ((extractComponentFromVariable file fp
          ⟨nm, sl, vsl, tn, some (.callInit callee args)⟩).isSome = true ↔
        (startsUpperAZ nm = true ∧
          wrapperSuffixHit (calleeName callee) = true ∧
          firstArgIsFunction args = true))) ∧
    (∀ (file : FileModel) (fp : String) (v : VarDecl),
      startsUpperAZ v.name = false →
      extractComponentFromVariable file fp v = none) := by
  constructor
  · intro file fp nm sl vsl tn callee args
    by_cases hu : startsUpperAZ nm = true
    · by_cases hw : wrapperSuffixHit (calleeName callee) = true
      · cases args with
        | nil =>
          simp [extractComponentFromVariable, hu, wrapperNameHit_eq, hw,
            firstArgIsFunction]
        | cons a rest =>
          cases a <;>
            simp [extractComponentFromVariable, hu, wrapperNameHit_eq,
              hw, firstArgIsFunction]
      · simp [extractComponentFromVariable, hu, wrapperNameHit_eq, hw]
    · simp [extractComponentFromVariable, hu]
  · intro file fp v hv
    rw [extractComponentFromVariable, if_neg (by simp [hv])]

/-- C7 witness: a genuine `React.memo` wrapper is recognized, and a
lowercase-named declaration never is. -/
theorem C7_witness :
    (extractComponentFromVariable emptyFile "g.tsx"
      ⟨"Bar", 1, some 1, none,
        some (.callInit (.identC "React.memo") [.arrowArg []])⟩).isSome =
      true ∧
    extractComponentFromVariable emptyFile "h.tsx"
      ⟨"lowercase", 1, some 1, none, some (.arrowFn [])⟩ = none :=
  ⟨(C7_amended.1 emptyFile "g.tsx" "Bar" 1 (some 1) none
      (.identC "React.memo") [.arrowArg []]).mpr (by decide),
   C7_amended.2 emptyFile "h.tsx" _ (by decide)⟩

/-- C8: in an environment whose JSX attribute names never equal the
sentinel (as the JSX grammar guarantees), once a hop records the sentinel
as its prop name, every hop after it in traversal order (that is, at a
smaller index of the source-to-current chain) records the sentinel too:
attribute matching compares names against the literal sentinel string,
which no attribute carries, so only the spread branch (or termination)
remains. -/
theorem C8_sentinel_propagation (env : Env) (maxDepth : Nat)
    (fp comp prop : String) (hwf : WfEnv env) :
    ∀ i j, j < i →
      i + 1 < (buildPropChain env maxDepth fp comp prop).chain.length →
      ((buildPropChain env maxDepth fp comp prop).chain.getD i
          default).propName = spreadSentinel →
      ((buildPropChain env maxDepth fp comp prop).chain.getD j
          default).propName = spreadSentinel := by
  have hb : buildRun env maxDepth fp comp prop =
      chainLoop env maxDepth 0 [initialNode env fp comp prop] [0] 0
        false := rfl
  have hsc := chainLoop_sentinelChain env hwf maxDepth 0
    [initialNode env fp comp prop] [0] 0 false
    (initialNode_inv env fp comp prop) (List.chain'_singleton _)
  rw [← hb] at hsc
  set r := buildRun env maxDepth fp comp prop with hrdef
  have hprops : (buildPropChain env maxDepth fp comp prop).chain.map
      PropNode.propName = (propsOf r.store r.chain).reverse := by
    rw [trace_chain_eq, trace_store, List.map_map, propsOf,
      ← List.map_reverse]
    refine List.map_congr_left ?_
    intro a _
    exact propName_nodeCore (overwrite_core r.store r.chain.reverse a)
  have hrevchain : List.Chain'
      (fun x y => y = spreadSentinel → x = spreadSentinel)
      ((buildPropChain env maxDepth fp comp prop).chain.map
        PropNode.propName) := by
    rw [hprops, List.chain'_reverse]
    exact hsc
  have hstep := List.chain'_iff_get.mp hrevchain
  have down : ∀ i, i < ((buildPropChain env maxDepth fp comp
      prop).chain.map PropNode.propName).length →
      ((buildPropChain env maxDepth fp comp prop).chain.map
        PropNode.propName).getD i "" = spreadSentinel →
      ∀ j, j ≤ i →
      ((buildPropChain env maxDepth fp comp prop).chain.map
        PropNode.propName).getD j "" = spreadSentinel := by
    intro i
    induction i with
    | zero =>
      intro _ hs j hj
      obtain rfl : j = 0 := by omega
      exact hs
    | succ m ihm =>
      intro hm hs j hj
      rcases Nat.lt_or_ge j (m + 1) with hlt | hge
      · have hm' : m < ((buildPropChain env maxDepth fp comp
            prop).chain.map PropNode.propName).length := by omega
        have hstepm := hstep m (by omega)
        simp only [List.get_eq_getElem] at hstepm
        have hprev : ((buildPropChain env maxDepth fp comp
            prop).chain.map PropNode.propName).getD m "" =
            spreadSentinel := by
          rw [List.getD_eq_getElem _ _ hm']
          refine hstepm ?_
          rw [← List.getD_eq_getElem _ "" hm]
          exact hs
        exact ihm hm' hprev j (by omega)
      · obtain rfl : j = m + 1 := by omega
        exact hs
  intro i j hji hi hsent
  have hMdef : ((buildPropChain env maxDepth fp comp prop).chain.map
      PropNode.propName).getD i "" =
      ((buildPropChain env maxDepth fp comp prop).chain.getD i
        default).propName :=
    List.getD_map (buildPropChain env maxDepth fp comp prop).chain default
      PropNode.propName
  have hMdefj : ((buildPropChain env maxDepth fp comp prop).chain.map
      PropNode.propName).getD j "" =
      ((buildPropChain env maxDepth fp comp prop).chain.getD j
        default).propName :=
    List.getD_map (buildPropChain env maxDepth fp comp prop).chain default
      PropNode.propName
  have hlenM : ((buildPropChain env maxDepth fp comp prop).chain.map
      PropNode.propName).length =
      (buildPropChain env maxDepth fp comp prop).chain.length := by
    rw [List.length_map]
  rw [← hMdefj]
  refine down i (by omega) ?_ j (by omega)
  rw [hMdef]
  exact hsent

/-- C8 witness: in the three-file spread chain, the hop at index 1 is
sentinel-resolved, so the hop at index 0 is too. -/
theorem C8_witness :
    ((buildPropChain envSp 20 "C.tsx" "Child" "label").chain.getD 0
        default).propName = spreadSentinel := by
  have hwf : WfEnv envSp := by
    intro fp
    dsimp only [envSp]
    split_ifs <;> decide
  exact C8_sentinel_propagation envSp 20 "C.tsx" "Child" "label" hwf 1 0
    (by decide) (by decide) (by decide)

/-- C10: when the requested component is not among the components
extracted from the file, `buildPropChain` still returns a trace whose
requested-definition node (the last of the returned chain) carries the
requested names and `lineCode = 0`. -/
theorem C10_missing_component (env : Env) (maxDepth : Nat)
    (fp comp prop : String)
    (h : ∀ c ∈ analyzeFile env fp, c.name ≠ comp) :
    ∃ n, (buildPropChain env maxDepth fp comp prop).chain.getLast? =
        some n ∧ n.componentName = comp ∧ n.propName = prop ∧
        n.lineCode = 0 := by
  have hfind : (analyzeFile env fp).find? (fun c => c.name = comp) =
      none := by
    rw [List.find?_eq_none]
    intro c hc
    simp [h c hc]
  have hn0 : initialNode env fp comp prop =
      ⟨comp, fp, prop, 0, .DEFINITION, none⟩ := by
    simp only [initialNode, hfind]
  obtain ⟨ext, cur', hchain, hlast, hinv, hslen, hcore0⟩ :=
    buildRun_spec env maxDepth fp comp prop
  set r := buildRun env maxDepth fp comp prop with hrdef
  have hgl : (buildPropChain env maxDepth fp comp prop).chain.getLast? =
      some (storeGet (overwriteTypes r.store r.chain.reverse) 0) := by
    rw [trace_chain_eq, trace_store, List.getLast?_map,
      List.getLast?_reverse, hchain]
    rfl
  have hc := (overwrite_core r.store r.chain.reverse 0).trans hcore0
  rw [hn0] at hc
  exact ⟨_, hgl, componentName_nodeCore hc, propName_nodeCore hc,
    lineCode_nodeCore hc⟩

/-- C10 witness: tracing an undeclared component in the empty workspace
yields the requested node with `lineCode = 0`. -/
theorem C10_witness :
    ∃ n, (buildPropChain envEmpty 20 "X.tsx" "Orphan"
        "p").chain.getLast? = some n ∧ n.componentName = "Orphan" ∧
      n.propName = "p" ∧ n.lineCode = 0 :=
  C10_missing_component envEmpty 20 "X.tsx" "Orphan" "p" (by decide)

end PropFlow
